import Mathlib

/-!
# jsondiff: structural comparison of JSON-like values

A shallow embedding of `diff.go` (package `jsondiff`): the generic value model
that `encoding/json` decodes into, the diff-item data model, the recursive
comparator (`compare`, `compareArrays`, `compareStringMaps`), the public entry
points (`Compare`, `CompareFiles`, `CompareMemToFile`) and the renderer (`Format`,
`writeItems`, `writeItem`), followed by theorems about them.
-/

namespace Jsondiff

/-! ## Generic values -/

/-- The dynamic values `encoding/json` stores in an `interface{}`: `nil`, `bool`,
`float64`, `string`, `[]interface{}` and `map[string]interface{}`.  A number is
represented by an integer code of its `float64` value, one code per numeric value:
the comparator only tests decoded numbers with `==`, which is equality of codes
(a JSON text decodes to no NaN, and `0` and `-0` are `==`).  A map is an
association list read through `mapGet`, so the first binding of a key is the one
that counts and every key is bound once. -/
inductive Value where
  | null : Value
  | bool (b : Bool) : Value
  | number (n : Int) : Value
  | string (s : String) : Value
  | array (xs : List Value) : Value
  | object (kvs : List (String × Value)) : Value

/-- The type `map[string]interface{}`. -/
abbrev GoMap := List (String × Value)

/-- The keys a `range` over the map yields: every key once, in the order of the
representation (Go leaves the order unspecified). -/
def mapKeys (m : GoMap) : List String := (m.map Prod.fst).dedup

/-- The lookup `v, ok := m[k]`. -/
def mapGet (m : GoMap) (k : String) : Option Value := List.lookup k m

/-- The value of the index expression `m[k]`: the zero value `nil` when absent. -/
def mapIndex (m : GoMap) (k : String) : Value := (mapGet m k).getD Value.null

/-- The value of `len(m)`. -/
def mapLen (m : GoMap) : Nat := (mapKeys m).length

/-- The value of the index expression `xs[i]` (used in bounds only). -/
def index (xs : List Value) (i : Nat) : Value := xs.getD i Value.null

theorem sizeOf_lookup_le (k : String) (m : GoMap) (v : Value)
    (h : List.lookup k m = some v) : sizeOf v < sizeOf m := by
  induction m with
  | nil => simp at h
  | cons p tl ih =>
    obtain ⟨k1, v1⟩ := p
    rw [List.lookup_cons] at h
    split at h
    · injection h with h
      subst h
      simp
      omega
    · have := ih h
      simp
      omega

theorem sizeOf_mapIndex_le (m : GoMap) (k : String) : sizeOf (mapIndex m k) ≤ sizeOf m := by
  unfold mapIndex mapGet
  cases h : List.lookup k m with
  | none =>
    cases m <;> simp
    omega
  | some v =>
    have := sizeOf_lookup_le k m v h
    simp
    omega

theorem sizeOf_index_le (xs : List Value) (i : Nat) : sizeOf (index xs i) ≤ sizeOf xs := by
  unfold index
  induction xs generalizing i with
  | nil => simp
  | cons x tl ih =>
    cases i with
    | zero => simp; omega
    | succ j =>
      have := ih j
      simp at this ⊢
      omega

/-- The function `reflect.DeepEqual` on generic values, after the rules of package
`reflect`: values of different dynamic type are never deeply equal; scalars are
compared with `==`; slices are deeply equal when they have the same length and
deeply equal elements at every index; maps are deeply equal when they have the
same length and every key of the first is bound in the second to a deeply equal
value. -/
def deepEqual : Value → Value → Bool
  | .null, .null => true
  | .bool a, .bool b => a == b
  | .number a, .number b => a == b
  | .string a, .string b => a == b
  | .array xs, .array ys =>
    xs.length == ys.length &&
      (List.range xs.length).all fun i => deepEqual (index xs i) (index ys i)
  | .object ma, .object mb =>
    mapLen ma == mapLen mb &&
      (mapKeys ma).all fun k =>
        match mapGet mb k with
        | none => false
        | some vb => deepEqual (mapIndex ma k) vb
  | _, _ => false
termination_by a => 2 * sizeOf a
decreasing_by
  · have := sizeOf_index_le xs i
    simp
    omega
  · have := sizeOf_mapIndex_le ma k
    simp
    omega

/-! ## The diff model -/

/-- The Go type `ResolutionType` with its five constants. -/
inductive ResolutionType where
  | TypeEquals
  | TypeNotEquals
  | TypeAdded
  | TypeRemoved
  | TypeDiff
  deriving DecidableEq, Repr

mutual
/-- What the `interface{}` fields `ValueA` and `ValueB` of a `DiffItem` hold:
a generic value (the Go `nil` is `Value.null`) or a `[]DiffItem`. -/
inductive Iface where
  | val (v : Value) : Iface
  | items (l : List DiffItem) : Iface
/-- The Go struct `DiffItem`. -/
inductive DiffItem where
  | mk (Key : String) (ValueA : Iface) (Resolution : ResolutionType) (ValueB : Iface) : DiffItem
end

/-- The untyped `nil` of Go as an `interface{}` value. -/
def Iface.nil : Iface := Iface.val Value.null

def DiffItem.Key : DiffItem → String
  | .mk k _ _ _ => k

def DiffItem.ValueA : DiffItem → Iface
  | .mk _ a _ _ => a

def DiffItem.Resolution : DiffItem → ResolutionType
  | .mk _ _ r _ => r

def DiffItem.ValueB : DiffItem → Iface
  | .mk _ _ _ b => b

/-- The Go `error` values, named by their message. -/
abbrev Error := String

/-- The Go struct `Diff`. -/
structure Diff where
  items : List DiffItem := []
  isArray : Bool := false
  Err : Option Error := none
  HasDiff : Bool := false

/-- The method `Diff.Items`. -/
def Diff.Items (d : Diff) : List DiffItem := d.items

/-- The method `Diff.Add`. -/
def Diff.Add (d : Diff) (item : DiffItem) : Diff :=
  let d := { d with items := d.items ++ [item] }
  if item.Resolution ≠ ResolutionType.TypeEquals then { d with HasDiff := true } else d

/-- The method `Diff.IsEqual`. -/
def Diff.IsEqual (d : Diff) : Bool := !d.HasDiff

/-- The method `byKey.Less` at two items. -/
def byKeyLess (x y : DiffItem) : Prop := x.Key < y.Key

instance : DecidableRel byKeyLess := fun x y => inferInstanceAs (Decidable (x.Key < y.Key))

/-- The method `Diff.sort`: `sort.Sort` over `byKey`, as an insertion sort that
puts `x` before `y` unless `y` is `Less` than `x`.  The items `compareStringMaps`
sorts have pairwise distinct keys, and such a list has one arrangement in key
order (`eq_of_perm_of_sorted_keys`), whatever the sorting algorithm. -/
def Diff.sort (d : Diff) : Diff :=
  { d with items := d.items.insertionSort (fun x y => ¬ byKeyLess y x) }

/-- The function `sortedKeys`: the keys of the map, then `sort.Strings`. -/
def sortedKeys (m : GoMap) : List String := (mapKeys m).insertionSort (· ≤ ·)

mutual
/-- The function `compare`. -/
def compare (A B : Value) : ResolutionType × Diff :=
  if deepEqual A B then (ResolutionType.TypeEquals, {})
  else
    match A, B with
    | .object mapA, .object mapB => (ResolutionType.TypeDiff, compareStringMaps mapA mapB)
    | .array arrayA, .array arrayB => (ResolutionType.TypeDiff, compareArrays arrayA arrayB)
    | _, _ => (ResolutionType.TypeNotEquals, {})
termination_by 2 * sizeOf A
decreasing_by
  all_goals simp
  all_goals omega

/-- The function `compareArrays`. -/
def compareArrays (A B : List Value) : Diff :=
  let result : Diff := {}
  let minLength := if A.length > B.length then B.length else A.length
  let result := (List.range minLength).foldl (fun result i =>
    let (resolutionType, subdiff) := compare (index A i) (index B i)
    match resolutionType with
    | .TypeEquals => result.Add (.mk "" (.val (index A i)) .TypeEquals .nil)
    | .TypeNotEquals => result.Add (.mk "" (.val (index A i)) .TypeNotEquals (.val (index B i)))
    | .TypeDiff => result.Add (.mk "" .nil .TypeDiff (.items subdiff.Items))
    | _ => result) result
  let result := ((List.range A.length).filter (minLength ≤ ·)).foldl (fun result i =>
    result.Add (.mk "" (.val (index A i)) .TypeRemoved .nil)) result
  let result := ((List.range B.length).filter (minLength ≤ ·)).foldl (fun result i =>
    result.Add (.mk "" .nil .TypeAdded (.val (index B i)))) result
  result
termination_by 2 * sizeOf A + 1
decreasing_by
  have := sizeOf_index_le A i
  omega

/-- The function `compareStringMaps`. -/
def compareStringMaps (A B : GoMap) : Diff :=
  let keysA := sortedKeys A
  let keysB := sortedKeys B
  let result : Diff := {}
  let result := keysA.foldl (fun result kA =>
    let vA := mapIndex A kA
    match mapGet B kA with
    | none => result.Add (.mk kA (.val vA) .TypeRemoved .nil)
    | some vB =>
      let (resolutionType, subdiff) := compare vA vB
      match resolutionType with
      | .TypeEquals => result.Add (.mk kA (.val vA) .TypeEquals .nil)
      | .TypeNotEquals => result.Add (.mk kA (.val vA) .TypeNotEquals (.val vB))
      | .TypeDiff => result.Add (.mk kA .nil .TypeDiff (.items subdiff.Items))
      | _ => result) result
  let result := keysB.foldl (fun result kB =>
    match mapGet A kB with
    | none => result.Add (.mk kB .nil .TypeAdded (.val (mapIndex B kB)))
    | some _ => result) result
  result.sort
termination_by 2 * sizeOf A + 1
decreasing_by
  have := sizeOf_mapIndex_le A kA
  omega
end

/-! ## The public entry point -/

/-- What `Compare` uses of package `encoding/json`: `json.Marshal` on an input of
type `α`, giving a JSON text of type `J` or an error, and `json.Unmarshal` of a
JSON text into a `map[string]interface{}` and into a `[]interface{}`. -/
structure Codec (α J : Type) where
  Marshal : α → Except Error J
  UnmarshalMap : J → Except Error GoMap
  UnmarshalArray : J → Except Error (List Value)

/-- The function `Compare`. -/
def Compare {α J : Type} (json : Codec α J) (a b : α) : Diff :=
  match json.Marshal a with
  | .error errA => { HasDiff := true, Err := some errA }
  | .ok jsonA =>
    match json.Marshal b with
    | .error errB => { HasDiff := true, Err := some errB }
    | .ok jsonB =>
      match json.UnmarshalMap jsonA with
      | .error _ =>
        match json.UnmarshalArray jsonA with
        | .error errA => { HasDiff := true, Err := some errA }
        | .ok arrA =>
          match json.UnmarshalArray jsonB with
          | .error errB => { HasDiff := true, Err := some errB }
          | .ok arrB =>
            let rv := compareArrays arrA arrB
            { rv with isArray := true }
      | .ok mapA =>
        match json.UnmarshalMap jsonB with
        | .error errB => { HasDiff := true, Err := some errB }
        | .ok mapB => compareStringMaps mapA mapB

/-- The JSON kind named in the message of a `json.UnmarshalTypeError`. -/
def kindName : Value → String
  | .null => "null"
  | .bool _ => "bool"
  | .number _ => "number"
  | .string _ => "string"
  | .array _ => "array"
  | .object _ => "object"

/-- The call `json.Unmarshal(text, &m)` with `m` an empty `map[string]interface{}`,
on the text of the JSON document `v`: an object fills the map, `null` sets it to
the nil map (which reads as the empty map), and any other document is an
`UnmarshalTypeError`. -/
def unmarshalMap : Value → Except Error GoMap
  | .object m => .ok m
  | .null => .ok []
  | v => .error ("json: cannot unmarshal " ++ kindName v ++
      " into Go value of type map[string]interface \x7b\x7d")

/-- The call `json.Unmarshal(text, &s)` with `s` an empty `[]interface{}`, on the
text of the JSON document `v`: an array fills the slice, `null` sets it to the
nil slice (of length 0), and any other document is an `UnmarshalTypeError`. -/
def unmarshalArray : Value → Except Error (List Value)
  | .array xs => .ok xs
  | .null => .ok []
  | v => .error ("json: cannot unmarshal " ++ kindName v ++
      " into Go value of type []interface \x7b\x7d")

/-- Package `encoding/json` on generic values: `json.Marshal` of a generic value
succeeds with the text of the JSON document of that value, and a JSON text is
represented by the document it denotes. -/
def genericJSON : Codec Value Value where
  Marshal := fun v => .ok v
  UnmarshalMap := unmarshalMap
  UnmarshalArray := unmarshalArray

/-! ## Auxiliary definitions for the statements -/

/-- The item `DiffItem{k, vA, TypeRemoved, nil}` both reconciliation loops add
for a key or position present on the left side only. -/
def removedItem (k : String) (vA : Value) : DiffItem :=
  .mk k (.val vA) .TypeRemoved .nil

/-- The item `DiffItem{k, nil, TypeAdded, vB}` both reconciliation loops add for
a key or position present on the right side only. -/
def addedItem (k : String) (vB : Value) : DiffItem :=
  .mk k .nil .TypeAdded (.val vB)

/-- The item both reconciliation loops add for a key or position present on both
sides: the `switch` on the outcome of `compare vA vB`. -/
def bothItem (k : String) (vA vB : Value) : DiffItem :=
  match compare vA vB with
  | (.TypeEquals, _) => .mk k (.val vA) .TypeEquals .nil
  | (.TypeNotEquals, _) => .mk k (.val vA) .TypeNotEquals (.val vB)
  | (_, subdiff) => .mk k .nil .TypeDiff (.items subdiff.Items)

/-- Both values are mappings, or both are sequences: the two successful pairs of
type assertions in `compare`. -/
def sameContainer : Value → Value → Bool
  | .object _, .object _ => true
  | .array _, .array _ => true
  | _, _ => false

/-- The test `item.Resolution != TypeEquals` of `Diff.Add`. -/
def nonEqual (it : DiffItem) : Bool := decide (it.Resolution ≠ ResolutionType.TypeEquals)

/-- Structural equality of generic values: the same kind of value with the same
content; sequences agree in length and position by position, mappings bind the
same keys to structurally equal values. -/
inductive StructEq : Value → Value → Prop where
  | null : StructEq .null .null
  | bool (b : Bool) : StructEq (.bool b) (.bool b)
  | number (n : Int) : StructEq (.number n) (.number n)
  | string (s : String) : StructEq (.string s) (.string s)
  | array (xs ys : List Value) (hlen : xs.length = ys.length)
      (helem : ∀ i, i < xs.length → StructEq (index xs i) (index ys i)) :
      StructEq (.array xs) (.array ys)
  | object (ma mb : GoMap)
      (hkeys : ∀ k, (mapGet ma k).isSome = (mapGet mb k).isSome)
      (hvals : ∀ k va vb, mapGet ma k = some va → mapGet mb k = some vb → StructEq va vb) :
      StructEq (.object ma) (.object mb)

/-- The value of `minLength` in `compareArrays`. -/
def minLength (A B : List Value) : Nat := if A.length > B.length then B.length else A.length

/-- The items `compareArrays` adds, loop after loop. -/
def arrayItems (A B : List Value) : List DiffItem :=
  (List.range (minLength A B)).map (fun i => bothItem "" (index A i) (index B i)) ++
  (((List.range A.length).filter (minLength A B ≤ ·)).map (fun i => removedItem "" (index A i)) ++
  ((List.range B.length).filter (minLength A B ≤ ·)).map (fun i => addedItem "" (index B i)))

/-- The item the first loop of `compareStringMaps` adds for the key `kA` of `A`. -/
def firstPassItem (A B : GoMap) (kA : String) : DiffItem :=
  match mapGet B kA with
  | none => removedItem kA (mapIndex A kA)
  | some vB => bothItem kA (mapIndex A kA) vB

/-- The items `compareStringMaps` adds, loop after loop, before the final sort. -/
def mapItems (A B : GoMap) : List DiffItem :=
  (sortedKeys A).map (firstPassItem A B) ++
  ((sortedKeys B).filter (fun kB => (mapGet A kB).isNone)).map
    (fun kB => addedItem kB (mapIndex B kB))

/-- The item of `compareStringMaps A B` for a key `k` bound in `A` or in `B`: the
second loop's item when `A` does not bind `k`, the first loop's item otherwise. -/
def mapItem (A B : GoMap) (k : String) : DiffItem :=
  match mapGet A k with
  | none => addedItem k (mapIndex B k)
  | some _ => firstPassItem A B k

/-- The keys bound in `A` or in `B`, each once, in ascending order. -/
def unionKeys (A B : GoMap) : List String :=
  ((mapKeys A ++ mapKeys B).dedup).insertionSort (· ≤ ·)

instance : IsTotal DiffItem (fun x y => ¬ byKeyLess y x) :=
  ⟨fun x y => by
    unfold byKeyLess
    rcases lt_trichotomy x.Key y.Key with h | h | h
    · exact Or.inl (not_lt.2 (le_of_lt h))
    · exact Or.inl (not_lt.2 (le_of_eq h))
    · exact Or.inr (not_lt.2 (le_of_lt h))⟩

instance : IsTrans DiffItem (fun x y => ¬ byKeyLess y x) :=
  ⟨fun x y z h1 h2 => by
    unfold byKeyLess at *
    exact not_lt.2 (le_trans (not_lt.1 h1) (not_lt.1 h2))⟩

/-- The keys in the order in which the two loops of `compareStringMaps` reach them. -/
def loopKeys (A B : GoMap) : List String :=
  sortedKeys A ++ (sortedKeys B).filter (fun kB => (mapGet A kB).isNone)

/-- The item of `compareArrays A B` at position `i`: the first loop's item below
`minLength`, then the second loop's item while `A` has elements, else the third
loop's item. -/
def arrayItem (A B : List Value) (i : Nat) : DiffItem :=
  if i < minLength A B then bothItem "" (index A i) (index B i)
  else if i < A.length then removedItem "" (index A i)
  else addedItem "" (index B i)

/-- Predicate `Populated a b it`: the item `it` describes the left value `a` and the right
value `b` (`none` for a side that has no value at that key or position) with its
fields filled as its `Resolution` requires; a `TypeDiff` item carries in `ValueB`
the items of the comparison of the two containers, populated in turn. -/
inductive Populated : Option Value → Option Value → DiffItem → Prop where
  | equal (k : String) (vA vB : Value) :
      Populated (some vA) (some vB) (.mk k (.val vA) .TypeEquals .nil)
  | notEqual (k : String) (vA vB : Value) :
      Populated (some vA) (some vB) (.mk k (.val vA) .TypeNotEquals (.val vB))
  | added (k : String) (vB : Value) :
      Populated none (some vB) (.mk k .nil .TypeAdded (.val vB))
  | removed (k : String) (vA : Value) :
      Populated (some vA) none (.mk k (.val vA) .TypeRemoved .nil)
  | diffMaps (k : String) (mapA mapB : GoMap)
      (hne : deepEqual (.object mapA) (.object mapB) = false)
      (hsub : ∀ it, it ∈ (compareStringMaps mapA mapB).Items →
        Populated (mapGet mapA it.Key) (mapGet mapB it.Key) it) :
      Populated (some (.object mapA)) (some (.object mapB))
        (.mk k .nil .TypeDiff (.items (compareStringMaps mapA mapB).Items))
  | diffArrays (k : String) (arrayA arrayB : List Value)
      (hne : deepEqual (.array arrayA) (.array arrayB) = false)
      (hsub : ∀ (i : Nat) (it : DiffItem), (compareArrays arrayA arrayB).Items[i]? = some it →
        Populated arrayA[i]? arrayB[i]? it) :
      Populated (some (.array arrayA)) (some (.array arrayB))
        (.mk k .nil .TypeDiff (.items (compareArrays arrayA arrayB).Items))

/-- Predicate `Nested it l`: the item `it` occurs in the item list `l` at some depth, that
is in `l` itself or in the list a `TypeDiff` item of `l` carries, and so on. -/
inductive Nested : DiffItem → List DiffItem → Prop where
  | top (it : DiffItem) (l : List DiffItem) (h : it ∈ l) : Nested it l
  | inside (it parent : DiffItem) (sub l : List DiffItem) (hp : parent ∈ l)
      (hr : parent.Resolution = ResolutionType.TypeDiff)
      (hv : parent.ValueB = Iface.items sub) (h : Nested it sub) : Nested it l

/-! ## The file comparisons -/

/-- The `error` result of a call (`nil` is `none`). -/
def errOf {β : Type} : Except Error β → Option Error
  | .error e => some e
  | .ok _ => none

/-- The map variable after `json.Unmarshal(text, &m)`: the decoded map; after a
failed call the variable is not read again, and stands as the empty map. -/
def mapOf : Except Error GoMap → GoMap
  | .ok m => m
  | .error _ => []

/-- The slice variable after `json.Unmarshal(text, &s)`: the decoded slice; after
a failed call the variable is not read again, and stands as the empty slice. -/
def arrOf : Except Error (List Value) → List Value
  | .ok s => s
  | .error _ => []

/-- The function `CompareFiles`, over the outcome `ReadFile` of reading a file
(the messages it prints are left out). -/
def CompareFiles {α J : Type} (json : Codec α J) (ReadFile : String → Except Error J)
    (afn bfn : String) : Diff :=
  match ReadFile afn with
  | .error _ => { HasDiff := true }
  | .ok jsonA =>
    match ReadFile bfn with
    | .error _ => { HasDiff := true }
    | .ok jsonB =>
      let mapA := mapOf (json.UnmarshalMap jsonA)
      let errA := errOf (json.UnmarshalMap jsonA)
      if errA ≠ none then
        let arrA := arrOf (json.UnmarshalArray jsonA)
        let errA := errOf (json.UnmarshalArray jsonA)
        let arrB := arrOf (json.UnmarshalArray jsonB)
        let errB := errOf (json.UnmarshalArray jsonB)
        if errA ≠ none then { HasDiff := true }
        else if errB ≠ none then { HasDiff := true }
        else
          let rv := compareArrays arrA arrB
          { rv with isArray := true }
      else
        let mapB := mapOf (json.UnmarshalMap jsonB)
        let errB := errOf (json.UnmarshalMap jsonB)
        if errA ≠ none ∧ errB ≠ none then { HasDiff := false }
        else if errA ≠ none then { HasDiff := true }
        else if errB ≠ none then { HasDiff := true }
        else compareStringMaps mapA mapB

/-- The function `CompareMemToFile`, over the outcome `ReadFile` of reading a file
(the messages it prints are left out). -/
def CompareMemToFile {α J : Type} (json : Codec α J) (ReadFile : String → Except Error J)
    (a : α) (bfn : String) : Diff :=
  match json.Marshal a with
  | .error errA => { HasDiff := true, Err := some errA }
  | .ok jsonA =>
    match ReadFile bfn with
    | .error _ => { HasDiff := true }
    | .ok jsonB =>
      let mapA := mapOf (json.UnmarshalMap jsonA)
      let errA := errOf (json.UnmarshalMap jsonA)
      if errA ≠ none then
        let arrA := arrOf (json.UnmarshalArray jsonA)
        let errA := errOf (json.UnmarshalArray jsonA)
        let arrB := arrOf (json.UnmarshalArray jsonB)
        let errB := errOf (json.UnmarshalArray jsonB)
        if errA ≠ none then { HasDiff := true }
        else if errB ≠ none then { HasDiff := true }
        else
          let rv := compareArrays arrA arrB
          { rv with isArray := true }
      else
        let mapB := mapOf (json.UnmarshalMap jsonB)
        let errB := errOf (json.UnmarshalMap jsonB)
        if errA ≠ none ∧ errB ≠ none then { HasDiff := false }
        else if errA ≠ none then { HasDiff := true }
        else if errB ≠ none then { HasDiff := true }
        else compareStringMaps mapA mapB

/-! ## The renderer -/

/-- One `Write` call on the writer: a text, or one of the four colour codes of
package `ansi` that the package variables hold. -/
inductive Chunk where
  | text (s : String)
  | colorStartYellow
  | colorStartRed
  | colorStartGreen
  | colorReset
  deriving DecidableEq, Repr

/-- The constant `indentation`. -/
def indentation : String := "    "

/-- The function `writeItem`, as the list of its writes; `marshal` is
`json.Marshal` on the value, its error dropped. -/
def writeItem (marshal : Iface → String) (pfx key : String) (value : Iface)
    (isNotLast : Bool) (isArray : Bool) : List Chunk :=
  (if isArray then [Chunk.text (pfx ++ " ")]
   else [Chunk.text (pfx ++ "\"" ++ key ++ "\": ")]) ++
  [Chunk.text (marshal value)] ++
  (if isNotLast then [Chunk.text ","] else [])

mutual
/-- The function `writeItems`, as the list of its writes; `none` is the panic of
a failed type assertion. -/
def writeItems (marshal : Iface → String) (pfx : String) (items : List DiffItem)
    (isArray : Bool) : Option (List Chunk) :=
  match writeItemsLoop marshal pfx isArray ((items.length : Int) - 1) 0 items with
  | none => none
  | some body =>
    some ((if isArray then [Chunk.text "["] else [Chunk.text "\x7b"]) ++ body ++
      (if isArray then [Chunk.text ("\n" ++ pfx ++ "]")]
       else [Chunk.text ("\n" ++ pfx ++ "\x7d")]))
termination_by (sizeOf items, 2)

/-- The loop `for i, item := range items` of `writeItems` from index `i` on. -/
def writeItemsLoop (marshal : Iface → String) (pfx : String) (isArray : Bool) (last : Int)
    (i : Nat) : List DiffItem → Option (List Chunk)
  | [] => some []
  | item :: rest =>
    match writeItemsSwitch marshal pfx isArray (decide ((i : Int) < last)) item with
    | none => none
    | some here =>
      match writeItemsLoop marshal pfx isArray last (i + 1) rest with
      | none => none
      | some more => some ([Chunk.text "\n"] ++ here ++ more)
termination_by items => (sizeOf items, 1)

/-- The `switch item.Resolution` in the loop of `writeItems`; `notLast` is
`i < last`. -/
def writeItemsSwitch (marshal : Iface → String) (pfx : String) (isArray : Bool)
    (notLast : Bool) (item : DiffItem) : Option (List Chunk) :=
  match item.Resolution with
  | .TypeEquals => some (writeItem marshal pfx item.Key item.ValueA notLast isArray)
  | .TypeNotEquals =>
    some ([Chunk.colorStartYellow] ++
      writeItem marshal (pfx ++ "<> ") item.Key item.ValueA notLast isArray ++
      [Chunk.text "\n"] ++
      writeItem marshal (pfx ++ "** ") item.Key item.ValueB notLast isArray ++
      [Chunk.colorReset])
  | .TypeAdded =>
    some ([Chunk.colorStartGreen] ++
      writeItem marshal (pfx ++ "<< ") item.Key item.ValueB notLast isArray ++
      [Chunk.colorReset])
  | .TypeRemoved =>
    some ([Chunk.colorStartRed] ++
      writeItem marshal (pfx ++ ">> ") item.Key item.ValueA notLast isArray ++
      [Chunk.colorReset])
  | .TypeDiff =>
    match _hsub : item.ValueB with
    | .val _ => none
    | .items subdiff =>
      match writeItems marshal (pfx ++ indentation) subdiff false with
      | none => none
      | some nested =>
        some ([Chunk.text (pfx ++ "\"" ++ item.Key ++ "\": ")] ++ nested ++
          (if notLast then [Chunk.text ","] else []))
termination_by (sizeOf item, 0)
decreasing_by
  apply Prod.Lex.left
  cases item with
  | mk k a r b =>
    simp only [DiffItem.ValueB] at _hsub
    subst _hsub
    simp
    omega
end

/-- The code bytes of the four colours: the values of the package variables
`colorStartYellow`, `colorStartRed`, `colorStartGreen` and `colorReset`, which
package `ansi` computes. -/
structure Colors where
  colorStartYellow : String
  colorStartRed : String
  colorStartGreen : String
  colorReset : String

/-- The bytes of one write. -/
def Chunk.bytes (c : Colors) : Chunk → String
  | .text s => s
  | .colorStartYellow => c.colorStartYellow
  | .colorStartRed => c.colorStartRed
  | .colorStartGreen => c.colorStartGreen
  | .colorReset => c.colorReset

/-- The function `Format`: the content of the buffer after `writeItems`; `none`
is a panic. -/
def Format (c : Colors) (marshal : Iface → String) (diff : Diff) : Option String :=
  match writeItems marshal "" diff.Items diff.isArray with
  | none => none
  | some writes => some (String.join (writes.map (Chunk.bytes c)))

/-! ## Auxiliary definitions for the statements on the renderer -/

/-- The writes of a loop whose iterations write `parts`: a newline before each. -/
def joinParts (parts : List (List Chunk)) : List Chunk :=
  (parts.map (fun p => Chunk.text "\n" :: p)).flatten

/-- The opening write of `writeItems`. -/
def openFrame (isArray : Bool) : Chunk :=
  if isArray then Chunk.text "[" else Chunk.text "\x7b"

/-- The closing write of `writeItems`. -/
def closeFrame (pfx : String) (isArray : Bool) : Chunk :=
  if isArray then Chunk.text ("\n" ++ pfx ++ "]") else Chunk.text ("\n" ++ pfx ++ "\x7d")

/-- The write of `writeItem` and of the `TypeDiff` case after the value: a comma
when the item is not the last. -/
def comma (isNotLast : Bool) : List Chunk :=
  if isNotLast then [Chunk.text ","] else []

/-- The first write of `writeItem`: the indentation and marker `pfx`, then a
space in an array, the quoted key and a colon in an object. -/
def itemHead (pfx key : String) (isArray : Bool) : Chunk :=
  if isArray then Chunk.text (pfx ++ " ") else Chunk.text (pfx ++ "\"" ++ key ++ "\": ")

/-- Whether a colour band is open after the writes `w`, given whether one was
open before them: a colour start opens a band, `colorReset` closes it. -/
def bandAfter (st : Bool) (w : List Chunk) : Bool :=
  w.foldl (fun st c =>
    match c with
    | .text _ => st
    | .colorReset => false
    | _ => true) st

/-- The write is a text, not a colour code. -/
def Chunk.isText : Chunk → Bool
  | .text _ => true
  | _ => false

/-- Predicate `RenderCall items0 isArray0 d pfx items isArray`: rendering the list
`items0` by `writeItems marshal "" items0 isArray0`, as `Format` does, calls
`writeItems marshal pfx items isArray` at nesting depth `d`: the outer call itself
at depth 0, and at depth `d + 1` the call the `TypeDiff` case makes for the list
of a Diff item of a list rendered at depth `d`. -/
inductive RenderCall (items0 : List DiffItem) (isArray0 : Bool) :
    Nat → String → List DiffItem → Bool → Prop where
  | root : RenderCall items0 isArray0 0 "" items0 isArray0
  | nested (d : Nat) (pfx : String) (items : List DiffItem) (isArray : Bool)
      (item : DiffItem) (subdiff : List DiffItem)
      (hcall : RenderCall items0 isArray0 d pfx items isArray) (hmem : item ∈ items)
      (hr : item.Resolution = ResolutionType.TypeDiff)
      (hv : item.ValueB = Iface.items subdiff) :
      RenderCall items0 isArray0 (d + 1) (pfx ++ indentation) subdiff false

/-- The number of spaces a text begins with. -/
def leadingSpaces (s : String) : Nat := (s.toList.takeWhile (fun ch => ch == ' ')).length

/-! ## Auxiliary definitions for the statements on both sides and on calls -/

/-- Predicate `Swapped x y`: the item `y` is the item `x` with the two sides
exchanged: Removed becomes Added and Added becomes Removed with `ValueA` and
`ValueB` exchanged, NotEqual has its two values exchanged, Equal keeps a
structurally equal value, and Diff carries the list exchanged item by item; the
key is kept. -/
inductive Swapped : DiffItem → DiffItem → Prop where
  | equal (k : String) (vA vB : Value) (h : StructEq vA vB) :
      Swapped (.mk k (.val vA) .TypeEquals .nil) (.mk k (.val vB) .TypeEquals .nil)
  | notEqual (k : String) (vA vB : Value) :
      Swapped (.mk k (.val vA) .TypeNotEquals (.val vB))
        (.mk k (.val vB) .TypeNotEquals (.val vA))
  | removed (k : String) (v : Value) :
      Swapped (.mk k (.val v) .TypeRemoved .nil) (.mk k .nil .TypeAdded (.val v))
  | added (k : String) (v : Value) :
      Swapped (.mk k .nil .TypeAdded (.val v)) (.mk k (.val v) .TypeRemoved .nil)
  | diff (k : String) (l l2 : List DiffItem) (hlen : l.length = l2.length)
      (hsub : ∀ (i : Nat) (x y : DiffItem), l[i]? = some x → l2[i]? = some y → Swapped x y) :
      Swapped (.mk k .nil .TypeDiff (.items l)) (.mk k .nil .TypeDiff (.items l2))

/-- The list `l2` is the list `l` exchanged item by item, in the same order. -/
def SwappedList (l l2 : List DiffItem) : Prop :=
  l.length = l2.length ∧
    ∀ (i : Nat) (x y : DiffItem), l[i]? = some x → l2[i]? = some y → Swapped x y

/-- Predicate `CompareCall callee caller`: the call `compare` at the pair `caller`
reaches, through `compareStringMaps` or `compareArrays`, the call of `compare` at
the pair `callee`: two mappings that are not deeply equal, at a key of the first
that the second binds; two sequences that are not deeply equal, at an index below
`minLength`. -/
inductive CompareCall : Value × Value → Value × Value → Prop where
  | ofMaps (mapA mapB : GoMap) (kA : String) (vB : Value)
      (hne : deepEqual (.object mapA) (.object mapB) = false)
      (hk : kA ∈ sortedKeys mapA) (hB : mapGet mapB kA = some vB) :
      CompareCall (mapIndex mapA kA, vB) (Value.object mapA, Value.object mapB)
  | ofArrays (arrayA arrayB : List Value) (i : Nat)
      (hne : deepEqual (.array arrayA) (.array arrayB) = false)
      (hi : i < minLength arrayA arrayB) :
      CompareCall (index arrayA i, index arrayB i) (Value.array arrayA, Value.array arrayB)

/-- Predicate `WriteCall sub items`: the call `writeItems` on `items` reaches the
call of `writeItems` on `sub`, the list of a Diff item of `items`. -/
inductive WriteCall : List DiffItem → List DiffItem → Prop where
  | ofDiff (items : List DiffItem) (item : DiffItem) (sub : List DiffItem)
      (hmem : item ∈ items) (hr : item.Resolution = ResolutionType.TypeDiff)
      (hv : item.ValueB = Iface.items sub) : WriteCall sub items

/-! ## Lemmas on maps and deep equality -/

theorem mem_map_fst_iff_lookup (m : GoMap) (k : String) :
    k ∈ m.map Prod.fst ↔ (List.lookup k m).isSome = true := by
  induction m with
  | nil => simp
  | cons p tl ih =>
    obtain ⟨k1, v1⟩ := p
    rw [List.lookup_cons]
    by_cases hk : k = k1
    · subst hk; simp
    · have : (k == k1) = false := by simpa using hk
      simp [this, hk, ih]

theorem mem_mapKeys (m : GoMap) (k : String) : k ∈ mapKeys m ↔ (mapGet m k).isSome = true := by
  unfold mapKeys mapGet
  rw [List.mem_dedup]
  exact mem_map_fst_iff_lookup m k

theorem nodup_mapKeys (m : GoMap) : (mapKeys m).Nodup := List.nodup_dedup _

theorem mapIndex_of_get {m : GoMap} {k : String} {v : Value} (h : mapGet m k = some v) :
    mapIndex m k = v := by
  simp [mapIndex, h]

theorem deepEqual_array (xs ys : List Value) :
    deepEqual (.array xs) (.array ys) =
      (xs.length == ys.length &&
        (List.range xs.length).all fun i => deepEqual (index xs i) (index ys i)) := by
  rw [deepEqual]

theorem deepEqual_object (ma mb : GoMap) :
    deepEqual (.object ma) (.object mb) =
      (mapLen ma == mapLen mb &&
        (mapKeys ma).all fun k =>
          match mapGet mb k with
          | none => false
          | some vb => deepEqual (mapIndex ma k) vb) := by
  rw [deepEqual]

/-- Two maps of the same length, the first one's keys all bound in the second,
bind the same keys. -/
theorem keys_eq_of_len_of_subset (ma mb : GoMap) (hlen : mapLen ma = mapLen mb)
    (hsub : ∀ k, (mapGet ma k).isSome = true → (mapGet mb k).isSome = true) (k : String) :
    (mapGet ma k).isSome = (mapGet mb k).isSome := by
  have hs : mapKeys ma ⊆ mapKeys mb := fun x hx =>
    (mem_mapKeys mb x).2 (hsub x ((mem_mapKeys ma x).1 hx))
  have hsp : (mapKeys ma).Subperm (mapKeys mb) := (nodup_mapKeys ma).subperm hs
  have hp : (mapKeys ma).Perm (mapKeys mb) := hsp.perm_of_length_le (by
    unfold mapLen at hlen; omega)
  have := hp.mem_iff (a := k)
  rw [mem_mapKeys, mem_mapKeys] at this
  cases h1 : (mapGet ma k).isSome <;> cases h2 : (mapGet mb k).isSome <;> simp_all

theorem len_eq_of_keys_eq (ma mb : GoMap)
    (h : ∀ k, (mapGet ma k).isSome = (mapGet mb k).isSome) : mapLen ma = mapLen mb := by
  have hp : (mapKeys ma).Perm (mapKeys mb) :=
    (List.perm_ext_iff_of_nodup (nodup_mapKeys ma) (nodup_mapKeys mb)).2 (fun k => by
      rw [mem_mapKeys, mem_mapKeys, h k])
  exact hp.length_eq

theorem sizeOf_index_lt_array (xs : List Value) (i : Nat) :
    sizeOf (index xs i) < sizeOf (Value.array xs) := by
  have := sizeOf_index_le xs i
  simp
  omega

theorem sizeOf_get_lt_object {m : GoMap} {k : String} {v : Value} (h : mapGet m k = some v) :
    sizeOf v < sizeOf (Value.object m) := by
  have := sizeOf_lookup_le k m v h
  simp
  omega

theorem deepEqual_iff_structEq_aux (n : Nat) :
    ∀ a b : Value, sizeOf a ≤ n → (deepEqual a b = true ↔ StructEq a b) := by
  induction n with
  | zero =>
    intro a b h
    cases a <;> simp at h
  | succ n ih =>
    intro a b hsz
    constructor
    · intro h
      cases a <;> cases b <;> simp [deepEqual] at h
      · exact .null
      · subst h; exact .bool _
      · subst h; exact .number _
      · subst h; exact .string _
      · rename_i xs ys
        refine .array xs ys h.1 (fun i hi => ?_)
        have hlt := sizeOf_index_lt_array xs i
        exact (ih _ _ (by omega)).1 (h.2 i hi)
      · rename_i ma mb
        have hsub : ∀ k, (mapGet ma k).isSome = true → (mapGet mb k).isSome = true := by
          intro k hk
          have := h.2 k ((mem_mapKeys ma k).2 hk)
          cases hb : mapGet mb k with
          | none => simp [hb] at this
          | some vb => rfl
        refine .object ma mb (keys_eq_of_len_of_subset ma mb h.1 hsub) ?_
        intro k va vb hva hvb
        have := h.2 k ((mem_mapKeys ma k).2 (by simp [hva]))
        simp only [hvb, mapIndex_of_get hva] at this
        have hlt := sizeOf_get_lt_object hva
        exact (ih _ _ (by omega)).1 this
    · intro h
      cases h with
      | null => simp [deepEqual]
      | bool b => simp [deepEqual]
      | number n => simp [deepEqual]
      | string s => simp [deepEqual]
      | array xs ys hlen helem =>
        simp only [deepEqual_array, Bool.and_eq_true, beq_iff_eq, List.all_eq_true, List.mem_range]
        refine ⟨hlen, fun i hi => ?_⟩
        have hlt := sizeOf_index_lt_array xs i
        exact (ih _ _ (by omega)).2 (helem i hi)
      | object ma mb hkeys hvals =>
        simp only [deepEqual_object, Bool.and_eq_true, beq_iff_eq, List.all_eq_true]
        refine ⟨len_eq_of_keys_eq ma mb hkeys, fun k hk => ?_⟩
        have hka := (mem_mapKeys ma k).1 hk
        have hkb : (mapGet mb k).isSome = true := by rw [← hkeys k]; exact hka
        obtain ⟨va, hva⟩ := Option.isSome_iff_exists.1 hka
        obtain ⟨vb, hvb⟩ := Option.isSome_iff_exists.1 hkb
        simp only [hvb, mapIndex_of_get hva]
        have hlt := sizeOf_get_lt_object hva
        exact (ih _ _ (by omega)).2 (hvals k va vb hva hvb)

/-- The function `reflect.DeepEqual` decides structural equality of generic values. -/
theorem deepEqual_iff_structEq (a b : Value) : deepEqual a b = true ↔ StructEq a b :=
  deepEqual_iff_structEq_aux (sizeOf a) a b (Nat.le_refl _)

/-! ## Lemmas on `Diff.Add` and `compare` -/

theorem Add_eq (d : Diff) (it : DiffItem) :
    d.Add it = { items := d.items ++ [it], isArray := d.isArray, Err := d.Err,
                 HasDiff := d.HasDiff || nonEqual it } := by
  unfold Diff.Add nonEqual
  cases d
  by_cases h : it.Resolution = ResolutionType.TypeEquals <;> simp [h]

theorem foldl_Add (l : List DiffItem) (d : Diff) :
    l.foldl Diff.Add d = { items := d.items ++ l, isArray := d.isArray, Err := d.Err,
                           HasDiff := d.HasDiff || l.any nonEqual } := by
  induction l generalizing d with
  | nil => cases d; simp
  | cons x tl ih =>
    rw [List.foldl_cons, ih, Add_eq]
    simp [Bool.or_assoc]

theorem foldl_step_filter {β : Type} (f : Diff → β → Diff) (p : β → Bool) (g : β → DiffItem)
    (l : List β) (h : ∀ r x, f r x = if p x = true then r.Add (g x) else r) (d : Diff) :
    l.foldl f d = ((l.filter p).map g).foldl Diff.Add d := by
  induction l generalizing d with
  | nil => rfl
  | cons x tl ih =>
    rw [List.foldl_cons, h d x]
    by_cases hp : p x = true
    · rw [List.filter_cons_of_pos hp, List.map_cons, List.foldl_cons, if_pos hp]
      exact ih _
    · rw [List.filter_cons_of_neg hp, if_neg hp]
      exact ih _

theorem compare_of_deepEqual {A B : Value} (h : deepEqual A B = true) :
    compare A B = (ResolutionType.TypeEquals, {}) := by
  unfold compare
  simp [h]

theorem compare_object {mapA mapB : GoMap}
    (h : deepEqual (.object mapA) (.object mapB) = false) :
    compare (.object mapA) (.object mapB) =
      (ResolutionType.TypeDiff, compareStringMaps mapA mapB) := by
  rw [compare]
  simp [h]

theorem compare_array {arrayA arrayB : List Value}
    (h : deepEqual (.array arrayA) (.array arrayB) = false) :
    compare (.array arrayA) (.array arrayB) =
      (ResolutionType.TypeDiff, compareArrays arrayA arrayB) := by
  rw [compare]
  simp [h]

theorem compare_other {A B : Value} (h : deepEqual A B = false)
    (hc : sameContainer A B = false) :
    compare A B = (ResolutionType.TypeNotEquals, {}) := by
  cases A <;> cases B <;> simp [sameContainer] at hc <;> rw [compare] <;> simp [h]

theorem compare_resolution (A B : Value) :
    (compare A B).1 = ResolutionType.TypeEquals ∨
    (compare A B).1 = ResolutionType.TypeNotEquals ∨
    (compare A B).1 = ResolutionType.TypeDiff := by
  cases h : deepEqual A B
  · cases hc : sameContainer A B
    · rw [compare_other h hc]; simp
    · cases A <;> cases B <;> simp [sameContainer] at hc
      · rw [compare_array h]; simp
      · rw [compare_object h]; simp
  · rw [compare_of_deepEqual h]; simp

theorem compare_fst_eq_equals (A B : Value) :
    (compare A B).1 = ResolutionType.TypeEquals ↔ deepEqual A B = true := by
  constructor
  · intro h
    cases hd : deepEqual A B
    · cases hc : sameContainer A B
      · rw [compare_other hd hc] at h; simp at h
      · cases A <;> cases B <;> simp [sameContainer] at hc
        · rw [compare_array hd] at h; simp at h
        · rw [compare_object hd] at h; simp at h
    · rfl
  · intro h
    rw [compare_of_deepEqual h]

/-- The step of the first loop of both reconciliations adds exactly `bothItem`. -/
theorem switch_eq_bothItem (result : Diff) (k : String) (vA vB : Value) :
    (match compare vA vB with
      | (resolutionType, subdiff) =>
        match resolutionType with
        | .TypeEquals => result.Add (.mk k (.val vA) .TypeEquals .nil)
        | .TypeNotEquals => result.Add (.mk k (.val vA) .TypeNotEquals (.val vB))
        | .TypeDiff => result.Add (.mk k .nil .TypeDiff (.items subdiff.Items))
        | _ => result) = result.Add (bothItem k vA vB) := by
  unfold bothItem
  rcases compare_resolution vA vB with h | h | h <;>
    (cases hc : compare vA vB with
     | mk r sd => rw [hc] at h; simp at h; subst h; rfl)

theorem compareArrays_eq (A B : List Value) :
    compareArrays A B = (arrayItems A B).foldl Diff.Add {} := by
  rw [compareArrays]
  unfold arrayItems minLength removedItem addedItem
  rw [List.foldl_append, List.foldl_append, List.foldl_map, List.foldl_map, List.foldl_map]
  congr 3
  funext result i
  exact switch_eq_bothItem result "" _ _

theorem compareStringMaps_eq (A B : GoMap) :
    compareStringMaps A B = ((mapItems A B).foldl Diff.Add {}).sort := by
  rw [compareStringMaps]
  unfold mapItems
  rw [List.foldl_append]
  rw [← foldl_step_filter (fun result kB =>
        match mapGet A kB with
        | none => result.Add (.mk kB .nil .TypeAdded (.val (mapIndex B kB)))
        | some _ => result) (fun kB => (mapGet A kB).isNone)
        (fun kB => addedItem kB (mapIndex B kB)) (sortedKeys B)
        (fun r x => by cases h : mapGet A x <;> simp [addedItem, h])]
  rw [List.foldl_map]
  congr 3
  funext result kA
  unfold firstPassItem
  cases h : mapGet B kA with
  | none => rfl
  | some vB => exact switch_eq_bothItem result kA _ vB

theorem sort_items_perm (d : Diff) : d.sort.items.Perm d.items :=
  List.perm_insertionSort _ _

theorem sort_items_sorted (d : Diff) : (d.sort.items.map DiffItem.Key).Sorted (· ≤ ·) := by
  have h := List.sorted_insertionSort (fun x y : DiffItem => ¬ byKeyLess y x) d.items
  unfold List.Sorted
  rw [List.pairwise_map]
  exact List.Pairwise.imp (fun {a b} hab => not_lt.1 hab) h

/-- Item lists with pairwise distinct keys have one arrangement in key order. -/
theorem eq_of_perm_of_sorted_keys :
    ∀ {l1 l2 : List DiffItem}, l1.Perm l2 →
      (l1.map DiffItem.Key).Sorted (· ≤ ·) → (l2.map DiffItem.Key).Sorted (· ≤ ·) →
      (l1.map DiffItem.Key).Nodup → l1 = l2
  | [], l2, hp, _, _, _ => by
    have := hp.length_eq
    cases l2 with
    | nil => rfl
    | cons b t => simp at this
  | a :: t1, l2, hp, h1, h2, hnd => by
    cases l2 with
    | nil => simpa using hp.length_eq
    | cons b t2 =>
      have hkeys : (a :: t1).map DiffItem.Key = (b :: t2).map DiffItem.Key :=
        List.eq_of_perm_of_sorted (hp.map DiffItem.Key) h1 h2
      simp only [List.map_cons, List.cons.injEq] at hkeys
      have hab : a = b := by
        have hmem : a ∈ b :: t2 := hp.subset (List.mem_cons_self _ _)
        rcases List.mem_cons.1 hmem with h | h
        · exact h
        · exfalso
          have : a.Key ∈ t1.map DiffItem.Key := by
            rw [hkeys.2]
            exact List.mem_map_of_mem _ h
          simp only [List.map_cons, List.nodup_cons] at hnd
          exact hnd.1 this
      subst hab
      have hp2 : t1.Perm t2 := (List.perm_cons a).1 hp
      simp only [List.map_cons, List.nodup_cons] at hnd
      rw [eq_of_perm_of_sorted_keys hp2 (List.Sorted.of_cons h1) (List.Sorted.of_cons h2) hnd.2]

theorem mem_sortedKeys (m : GoMap) (k : String) :
    k ∈ sortedKeys m ↔ (mapGet m k).isSome = true := by
  unfold sortedKeys
  rw [(List.perm_insertionSort _ _).mem_iff]
  exact mem_mapKeys m k

theorem nodup_sortedKeys (m : GoMap) : (sortedKeys m).Nodup :=
  (List.perm_insertionSort _ _).nodup_iff.2 (nodup_mapKeys m)

theorem sorted_sortedKeys (m : GoMap) : (sortedKeys m).Sorted (· ≤ ·) :=
  List.sorted_insertionSort _ _

theorem mem_unionKeys (A B : GoMap) (k : String) :
    k ∈ unionKeys A B ↔ (mapGet A k).isSome = true ∨ (mapGet B k).isSome = true := by
  unfold unionKeys
  rw [(List.perm_insertionSort _ _).mem_iff, List.mem_dedup, List.mem_append,
    mem_mapKeys, mem_mapKeys]

theorem nodup_unionKeys (A B : GoMap) : (unionKeys A B).Nodup :=
  (List.perm_insertionSort _ _).nodup_iff.2 (List.nodup_dedup _)

theorem sorted_unionKeys (A B : GoMap) : (unionKeys A B).Sorted (· ≤ ·) :=
  List.sorted_insertionSort _ _

theorem removedItem_Key (k : String) (v : Value) : (removedItem k v).Key = k := rfl

theorem addedItem_Key (k : String) (v : Value) : (addedItem k v).Key = k := rfl

theorem bothItem_Key (k : String) (vA vB : Value) : (bothItem k vA vB).Key = k := by
  unfold bothItem
  split <;> rfl

theorem firstPassItem_Key (A B : GoMap) (k : String) : (firstPassItem A B k).Key = k := by
  unfold firstPassItem
  split
  · rfl
  · exact bothItem_Key _ _ _

theorem mapItem_Key (A B : GoMap) (k : String) : (mapItem A B k).Key = k := by
  unfold mapItem
  split
  · rfl
  · exact firstPassItem_Key _ _ _

theorem map_Key_mapItem (A B : GoMap) (l : List String) :
    (l.map (mapItem A B)).map DiffItem.Key = l := by
  rw [List.map_map]
  conv => rhs; rw [← List.map_id l]
  exact List.map_congr_left (fun k _ => mapItem_Key A B k)

theorem mapItems_eq_map (A B : GoMap) : mapItems A B = (loopKeys A B).map (mapItem A B) := by
  unfold mapItems loopKeys
  rw [List.map_append]
  congr 1
  · apply List.map_congr_left
    intro k hk
    have := (mem_sortedKeys A k).1 hk
    obtain ⟨v, hv⟩ := Option.isSome_iff_exists.1 this
    simp [mapItem, hv]
  · apply List.map_congr_left
    intro k hk
    have := (List.mem_filter.1 hk).2
    have hn : mapGet A k = none := by simpa using this
    simp [mapItem, hn]

theorem mem_loopKeys (A B : GoMap) (k : String) :
    k ∈ loopKeys A B ↔ (mapGet A k).isSome = true ∨ (mapGet B k).isSome = true := by
  unfold loopKeys
  rw [List.mem_append, List.mem_filter, mem_sortedKeys, mem_sortedKeys]
  cases mapGet A k <;> simp

theorem nodup_loopKeys (A B : GoMap) : (loopKeys A B).Nodup := by
  unfold loopKeys
  refine List.nodup_append.2 ⟨nodup_sortedKeys A, (nodup_sortedKeys B).filter _, ?_⟩
  intro k h1 h2
  have h1 := (mem_sortedKeys A k).1 h1
  have h2 := (List.mem_filter.1 h2).2
  cases h : mapGet A k <;> simp [h] at h1 h2

theorem loopKeys_perm (A B : GoMap) : (loopKeys A B).Perm (unionKeys A B) :=
  (List.perm_ext_iff_of_nodup (nodup_loopKeys A B) (nodup_unionKeys A B)).2 (fun k => by
    rw [mem_loopKeys, mem_unionKeys])

theorem sort_HasDiff (d : Diff) : d.sort.HasDiff = d.HasDiff := rfl

theorem sort_Err (d : Diff) : d.sort.Err = d.Err := rfl

theorem sort_isArray (d : Diff) : d.sort.isArray = d.isArray := rfl

/-- The items of `compareStringMaps A B`: one per key of `A` or `B`, in key order. -/
theorem compareStringMaps_items (A B : GoMap) :
    (compareStringMaps A B).items = (unionKeys A B).map (mapItem A B) := by
  rw [compareStringMaps_eq]
  have hitems : ((mapItems A B).foldl Diff.Add {}).items = (loopKeys A B).map (mapItem A B) := by
    rw [foldl_Add, mapItems_eq_map]
    simp
  have hperm : (((mapItems A B).foldl Diff.Add {}).sort.items).Perm
      ((unionKeys A B).map (mapItem A B)) := by
    refine (sort_items_perm _).trans ?_
    rw [hitems]
    exact (loopKeys_perm A B).map _
  refine eq_of_perm_of_sorted_keys hperm (sort_items_sorted _) ?_ ?_
  · rw [map_Key_mapItem]
    exact sorted_unionKeys A B
  · have := (hperm.map DiffItem.Key).nodup_iff
    rw [this, map_Key_mapItem]
    exact nodup_unionKeys A B

theorem compareStringMaps_HasDiff (A B : GoMap) :
    (compareStringMaps A B).HasDiff = (mapItems A B).any nonEqual := by
  rw [compareStringMaps_eq, sort_HasDiff, foldl_Add]
  simp

theorem compareStringMaps_isArray (A B : GoMap) : (compareStringMaps A B).isArray = false := by
  rw [compareStringMaps_eq, sort_isArray, foldl_Add]

theorem compareStringMaps_Err (A B : GoMap) : (compareStringMaps A B).Err = none := by
  rw [compareStringMaps_eq, sort_Err, foldl_Add]

theorem compareArrays_items (A B : List Value) :
    (compareArrays A B).items = arrayItems A B := by
  rw [compareArrays_eq, foldl_Add]
  simp

theorem compareArrays_HasDiff (A B : List Value) :
    (compareArrays A B).HasDiff = (arrayItems A B).any nonEqual := by
  rw [compareArrays_eq, foldl_Add]
  simp

theorem compareArrays_isArray (A B : List Value) : (compareArrays A B).isArray = false := by
  rw [compareArrays_eq, foldl_Add]

theorem compareArrays_Err (A B : List Value) : (compareArrays A B).Err = none := by
  rw [compareArrays_eq, foldl_Add]

/-! ## No difference flagged exactly on deeply equal inputs -/

theorem nonEqual_removedItem (k : String) (v : Value) : nonEqual (removedItem k v) = true := by
  simp [nonEqual, removedItem, DiffItem.Resolution]

theorem nonEqual_addedItem (k : String) (v : Value) : nonEqual (addedItem k v) = true := by
  simp [nonEqual, addedItem, DiffItem.Resolution]

theorem bothItem_Resolution (k : String) (vA vB : Value) :
    (bothItem k vA vB).Resolution = (compare vA vB).1 := by
  unfold bothItem
  rcases compare_resolution vA vB with h | h | h <;>
    (cases hc : compare vA vB with
     | mk r sd => rw [hc] at h; simp at h; subst h; rfl)

theorem nonEqual_bothItem (k : String) (vA vB : Value) :
    nonEqual (bothItem k vA vB) = !deepEqual vA vB := by
  unfold nonEqual
  rw [bothItem_Resolution]
  cases h : deepEqual vA vB
  · have := (compare_fst_eq_equals vA vB).not.2 (by simp [h])
    simp [this]
  · have := (compare_fst_eq_equals vA vB).2 h
    simp [this]

theorem nonEqual_firstPassItem (A B : GoMap) (k : String) :
    nonEqual (firstPassItem A B k) =
      !(match mapGet B k with
        | none => false
        | some vb => deepEqual (mapIndex A k) vb) := by
  unfold firstPassItem
  cases h : mapGet B k with
  | none => simp [nonEqual_removedItem]
  | some vb => simp [nonEqual_bothItem]

theorem any_map_eq_false {β : Type} (f : β → DiffItem) (p : DiffItem → Bool) (l : List β) :
    (l.map f).any p = false ↔ ∀ x ∈ l, p (f x) = false := by
  induction l with
  | nil => simp
  | cons x tl ih => simp [ih]

theorem compareStringMaps_HasDiff_iff (A B : GoMap) :
    (compareStringMaps A B).HasDiff = false ↔ deepEqual (.object A) (.object B) = true := by
  rw [compareStringMaps_HasDiff, deepEqual_object]
  unfold mapItems
  rw [List.any_append, Bool.or_eq_false_iff, any_map_eq_false, any_map_eq_false]
  simp only [nonEqual_firstPassItem, nonEqual_addedItem, Bool.and_eq_true,
    beq_iff_eq, List.all_eq_true, mem_sortedKeys, List.mem_filter, Bool.not_eq_true,
    Bool.not_eq_false']
  constructor
  · rintro ⟨h1, h2⟩
    have hall : ∀ k ∈ mapKeys A,
        (match mapGet B k with
          | none => false
          | some vb => deepEqual (mapIndex A k) vb) = true :=
      fun k hk => h1 k ((mem_mapKeys A k).1 hk)
    refine ⟨len_eq_of_keys_eq A B (fun k => ?_), hall⟩
    cases ha : (mapGet A k).isSome
    · cases hb : (mapGet B k).isSome
      · rfl
      · exfalso
        exact absurd (h2 k ⟨hb, by simpa using ha⟩) (by simp)
    · have := h1 k ha
      cases hb : mapGet B k with
      | none => simp [hb] at this
      | some vb => rfl
  · rintro ⟨hlen, hall⟩
    have h1 : ∀ k, (mapGet A k).isSome = true →
        (match mapGet B k with
          | none => false
          | some vb => deepEqual (mapIndex A k) vb) = true :=
      fun k hk => hall k ((mem_mapKeys A k).2 hk)
    refine ⟨h1, ?_⟩
    rintro k ⟨hb, ha⟩
    have hsub : ∀ k, (mapGet A k).isSome = true → (mapGet B k).isSome = true := by
      intro k hk
      have := h1 k hk
      cases hb : mapGet B k with
      | none => simp [hb] at this
      | some vb => rfl
    have := keys_eq_of_len_of_subset A B hlen hsub k
    rw [hb] at this
    cases hg : mapGet A k <;> simp [hg] at ha this

theorem minLength_eq_min (A B : List Value) : minLength A B = min A.length B.length := by
  unfold minLength
  split <;> omega

theorem compareArrays_HasDiff_iff (A B : List Value) :
    (compareArrays A B).HasDiff = false ↔ deepEqual (.array A) (.array B) = true := by
  rw [compareArrays_HasDiff, deepEqual_array]
  unfold arrayItems
  rw [List.any_append, List.any_append, Bool.or_eq_false_iff, Bool.or_eq_false_iff,
    any_map_eq_false, any_map_eq_false, any_map_eq_false]
  simp only [nonEqual_bothItem, nonEqual_removedItem, nonEqual_addedItem, Bool.and_eq_true,
    beq_iff_eq, List.all_eq_true, List.mem_filter, List.mem_range, Bool.not_eq_false',
    decide_eq_true_eq, minLength_eq_min]
  constructor
  · rintro ⟨h1, h2, h3⟩
    have hA : ¬ (min A.length B.length < A.length) := fun h =>
      absurd (h2 (min A.length B.length) ⟨h, Nat.le_refl _⟩) (by simp)
    have hB : ¬ (min A.length B.length < B.length) := fun h =>
      absurd (h3 (min A.length B.length) ⟨h, Nat.le_refl _⟩) (by simp)
    have hlen : A.length = B.length := by omega
    exact ⟨hlen, fun i hi => h1 i (by omega)⟩
  · rintro ⟨hlen, hall⟩
    refine ⟨fun i hi => hall i (by omega), ?_, ?_⟩
    · rintro i ⟨hi, hm⟩
      omega
    · rintro i ⟨hi, hm⟩
      omega

/-! ## Structural equality is an equivalence -/

theorem StructEq.refl_aux (n : Nat) : ∀ a : Value, sizeOf a ≤ n → StructEq a a := by
  induction n with
  | zero =>
    intro a h
    cases a <;> simp at h
  | succ n ih =>
    intro a hsz
    cases a with
    | null => exact .null
    | bool b => exact .bool b
    | number m => exact .number m
    | string s => exact .string s
    | array xs =>
      refine .array xs xs rfl (fun i _ => ih _ ?_)
      have := sizeOf_index_lt_array xs i
      omega
    | object m =>
      refine .object m m (fun _ => rfl) (fun k va vb ha hb => ?_)
      rw [ha] at hb
      injection hb with hb
      subst hb
      have := sizeOf_get_lt_object ha
      exact ih _ (by omega)

theorem StructEq.refl (a : Value) : StructEq a a :=
  StructEq.refl_aux (sizeOf a) a (Nat.le_refl _)

theorem StructEq.symm {a b : Value} (h : StructEq a b) : StructEq b a := by
  induction h with
  | null => exact .null
  | bool b => exact .bool b
  | number n => exact .number n
  | string s => exact .string s
  | array xs ys hlen _ ih => exact .array ys xs hlen.symm (fun i hi => ih i (by omega))
  | object ma mb hkeys _ ih =>
    exact .object mb ma (fun k => (hkeys k).symm) (fun k va vb ha hb => ih k vb va hb ha)

theorem StructEq.trans {a b c : Value} (h1 : StructEq a b) (h2 : StructEq b c) :
    StructEq a c := by
  induction h1 generalizing c with
  | null => exact h2
  | bool b => exact h2
  | number n => exact h2
  | string s => exact h2
  | array xs ys hlen _ ih =>
    cases h2 with
    | array _ zs hlen2 helem2 =>
      exact .array xs zs (hlen.trans hlen2) (fun i hi => ih i hi (helem2 i (by omega)))
  | object ma mb hkeys _ ih =>
    cases h2 with
    | object _ mc hkeys2 hvals2 =>
      refine .object ma mc (fun k => (hkeys k).trans (hkeys2 k)) (fun k va vc ha hc => ?_)
      have hb : (mapGet mb k).isSome = true := by rw [← hkeys k, ha]; rfl
      obtain ⟨vb, hvb⟩ := Option.isSome_iff_exists.1 hb
      exact ih k va vb ha hvb (hvals2 k vb vc hvb hc)

theorem deepEqual_refl (a : Value) : deepEqual a a = true :=
  (deepEqual_iff_structEq a a).2 (StructEq.refl a)

theorem deepEqual_symm (a b : Value) : deepEqual a b = deepEqual b a := by
  cases h1 : deepEqual a b <;> cases h2 : deepEqual b a <;> try rfl
  · have := (deepEqual_iff_structEq a b).2 ((deepEqual_iff_structEq b a).1 h2).symm
    simp [h1] at this
  · have := (deepEqual_iff_structEq b a).2 ((deepEqual_iff_structEq a b).1 h1).symm
    simp [h2] at this

/-! ## `Compare` on generic values -/

theorem Compare_object_object (A B : GoMap) :
    Compare genericJSON (.object A) (.object B) = compareStringMaps A B := rfl

theorem Compare_array_array (X Y : List Value) :
    Compare genericJSON (.array X) (.array Y) = { compareArrays X Y with isArray := true } := rfl

/-- C1: for JSON objects `A`, `B` (and likewise JSON arrays `X`, `Y`) the result
`d` of `Compare` has `d.IsEqual() = true`, equivalently `d.HasDiff = false`, if and
only if the two values are structurally equal; and when they are equal every item
of `d` has Resolution `TypeEquals`. -/
theorem C1_isEqual_iff_structurally_equal (A B : GoMap) (X Y : List Value) :
    ((Compare genericJSON (.object A) (.object B)).IsEqual = true ↔
        StructEq (.object A) (.object B)) ∧
    ((Compare genericJSON (.object A) (.object B)).IsEqual = true ↔
        (Compare genericJSON (.object A) (.object B)).HasDiff = false) ∧
    (StructEq (.object A) (.object B) →
        ∀ it ∈ (Compare genericJSON (.object A) (.object B)).Items,
          it.Resolution = ResolutionType.TypeEquals) ∧
    ((Compare genericJSON (.array X) (.array Y)).IsEqual = true ↔
        StructEq (.array X) (.array Y)) ∧
    ((Compare genericJSON (.array X) (.array Y)).IsEqual = true ↔
        (Compare genericJSON (.array X) (.array Y)).HasDiff = false) ∧
    (StructEq (.array X) (.array Y) →
        ∀ it ∈ (Compare genericJSON (.array X) (.array Y)).Items,
          it.Resolution = ResolutionType.TypeEquals) := by
  rw [Compare_object_object, Compare_array_array]
  have hm : (compareStringMaps A B).HasDiff = false ↔ StructEq (.object A) (.object B) :=
    (compareStringMaps_HasDiff_iff A B).trans (deepEqual_iff_structEq _ _)
  have ha : (compareArrays X Y).HasDiff = false ↔ StructEq (.array X) (.array Y) :=
    (compareArrays_HasDiff_iff X Y).trans (deepEqual_iff_structEq _ _)
  have hmi : (compareStringMaps A B).IsEqual = true ↔ (compareStringMaps A B).HasDiff = false := by
    simp [Diff.IsEqual]
  refine ⟨hmi.trans hm, hmi, ?_, ?_, ?_, ?_⟩
  · intro h it hit
    have hd := hm.2 h
    rw [compareStringMaps_eq, sort_HasDiff, foldl_Add] at hd
    have hmem : it ∈ mapItems A B := by
      have := (sort_items_perm ((mapItems A B).foldl Diff.Add {})).subset
        (by rw [← compareStringMaps_eq]; exact hit)
      rw [foldl_Add] at this
      simpa using this
    simp only [Bool.false_or, List.any_eq_false] at hd
    have := hd it hmem
    simpa [nonEqual] using this
  · simp only [Diff.IsEqual, Bool.not_eq_true']
    exact ha
  · simp [Diff.IsEqual]
  · intro h it hit
    have hd := ha.2 h
    rw [compareArrays_HasDiff] at hd
    have hmem : it ∈ arrayItems X Y := by
      have : it ∈ (compareArrays X Y).items := hit
      rwa [compareArrays_items] at this
    simp only [List.any_eq_false] at hd
    have := hd it hmem
    simpa [nonEqual] using this

theorem compareStringMaps_HasDiff_symm (A B : GoMap) :
    (compareStringMaps A B).HasDiff = (compareStringMaps B A).HasDiff := by
  have h1 := compareStringMaps_HasDiff_iff A B
  have h2 := compareStringMaps_HasDiff_iff B A
  rw [deepEqual_symm] at h2
  cases h : (compareStringMaps A B).HasDiff <;> cases h' : (compareStringMaps B A).HasDiff <;>
    simp_all

theorem compareArrays_HasDiff_symm (X Y : List Value) :
    (compareArrays X Y).HasDiff = (compareArrays Y X).HasDiff := by
  have h1 := compareArrays_HasDiff_iff X Y
  have h2 := compareArrays_HasDiff_iff Y X
  rw [deepEqual_symm] at h2
  cases h : (compareArrays X Y).HasDiff <;> cases h' : (compareArrays Y X).HasDiff <;>
    simp_all

theorem compareStringMaps_self (A : GoMap) : (compareStringMaps A A).HasDiff = false :=
  (compareStringMaps_HasDiff_iff A A).2 (deepEqual_refl _)

theorem compareArrays_self (X : List Value) : (compareArrays X X).HasDiff = false :=
  (compareArrays_HasDiff_iff X X).2 (deepEqual_refl _)

theorem compareArrays_nil_right {X : List Value} (h : X ≠ []) :
    (compareArrays X []).HasDiff = true := by
  cases hd : (compareArrays X []).HasDiff
  · have := (compareArrays_HasDiff_iff X []).1 hd
    rw [deepEqual_array] at this
    simp at this
    exact absurd this.1 h
  · rfl

/-- C2, as the code has it: `Compare(X, X)` reports no difference when `X` is an
object, an array or null; when `X` is a boolean, a number or a string, `Compare`
aborts with `HasDiff = true` and the decoding error; `{"a":1}` against itself
gives one Equal item. -/
theorem C2_reflexivity_on_containers :
    (∀ m : GoMap, (Compare genericJSON (.object m) (.object m)).HasDiff = false) ∧
    (∀ xs : List Value, (Compare genericJSON (.array xs) (.array xs)).HasDiff = false) ∧
    (Compare genericJSON .null .null).HasDiff = false ∧
    (∀ b : Bool, (Compare genericJSON (.bool b) (.bool b)).HasDiff = true ∧
        (Compare genericJSON (.bool b) (.bool b)).Err ≠ none) ∧
    (∀ n : Int, (Compare genericJSON (.number n) (.number n)).HasDiff = true ∧
        (Compare genericJSON (.number n) (.number n)).Err ≠ none) ∧
    (∀ s : String, (Compare genericJSON (.string s) (.string s)).HasDiff = true ∧
        (Compare genericJSON (.string s) (.string s)).Err ≠ none) ∧
    (Compare genericJSON (Value.object [("a", Value.number 1)])
        (Value.object [("a", Value.number 1)])).Items =
      [DiffItem.mk "a" (Iface.val (Value.number 1)) ResolutionType.TypeEquals Iface.nil] := by
  refine ⟨fun m => ?_, fun xs => ?_, ?_, fun b => ?_, fun n => ?_, fun s => ?_, ?_⟩
  · rw [Compare_object_object]
    exact compareStringMaps_self m
  · rw [Compare_array_array]
    exact compareArrays_self xs
  · exact compareStringMaps_self []
  · exact ⟨rfl, by simp [Compare, genericJSON, unmarshalMap, unmarshalArray]⟩
  · exact ⟨rfl, by simp [Compare, genericJSON, unmarshalMap, unmarshalArray]⟩
  · exact ⟨rfl, by simp [Compare, genericJSON, unmarshalMap, unmarshalArray]⟩
  · rw [Compare_object_object]
    simp [Diff.Items, compareStringMaps, compare, deepEqual, index, Diff.Add,
      DiffItem.Resolution, sortedKeys, mapKeys, mapGet, mapIndex, mapLen, Diff.sort,
      byKeyLess, DiffItem.Key]

/-- C2 as stated fails on a scalar: `Compare(1, 1)` has `HasDiff = true`. -/
theorem C2_counterexample_scalar :
    ¬ ((Compare genericJSON (Value.number 1) (Value.number 1)).HasDiff = false) := by
  simp [Compare, genericJSON, unmarshalMap, unmarshalArray]

/-- C3 fails by a defect at the empty array against null: `Compare([], null)`
decodes the right-hand `null` into the nil slice, compares two empty sequences and
returns `HasDiff = false`, `IsEqual() = true` and no error on two documents that
are not structurally equal, while `Compare(null, [])` aborts with `HasDiff = true`;
below the top level `compare` classifies `[]` against `null` as `TypeNotEquals`,
so `Compare([[]], [null])` has `HasDiff = true`. -/
theorem C3_emptyArray_against_null :
    (Compare genericJSON (Value.array []) Value.null).HasDiff = false ∧
    (Compare genericJSON (Value.array []) Value.null).IsEqual = true ∧
    (Compare genericJSON (Value.array []) Value.null).Err = none ∧
    ¬ StructEq (Value.array []) Value.null ∧
    (Compare genericJSON Value.null (Value.array [])).HasDiff = true ∧
    compare (Value.array []) Value.null = (ResolutionType.TypeNotEquals, {}) ∧
    (Compare genericJSON (Value.array [Value.array []])
      (Value.array [Value.null])).HasDiff = true := by
  have h0 : (Compare genericJSON (Value.array []) Value.null).HasDiff = false :=
    compareArrays_self []
  have h1 : (Compare genericJSON (Value.array []) Value.null).Err = none :=
    compareArrays_Err [] []
  have h2 : ¬ StructEq (Value.array []) Value.null := by
    intro h
    cases h
  have h3 : compare (Value.array []) Value.null = (ResolutionType.TypeNotEquals, {}) :=
    compare_other (by simp [deepEqual]) (by simp [sameContainer])
  have h4 : (Compare genericJSON (Value.array [Value.array []])
      (Value.array [Value.null])).HasDiff = true := by
    rw [Compare_array_array]
    show (compareArrays [Value.array []] [Value.null]).HasDiff = true
    cases hd : (compareArrays [Value.array []] [Value.null]).HasDiff
    · have h := (compareArrays_HasDiff_iff _ _).1 hd
      simp [deepEqual, index] at h
    · rfl
  refine ⟨h0, ?_, h1, h2, rfl, h3, h4⟩
  simp [Diff.IsEqual, h0]

/-- Away from null paired with the empty array detection is symmetric:
`Compare(A, B).HasDiff = Compare(B, A).HasDiff` for all other generic values `A`
and `B` (objects, arrays, scalars, also of different shape). -/
theorem detection_symmetric_off_null_emptyArray (A B : Value)
    (h1 : ¬ (A = Value.null ∧ B = Value.array []))
    (h2 : ¬ (A = Value.array [] ∧ B = Value.null)) :
    (Compare genericJSON A B).HasDiff = (Compare genericJSON B A).HasDiff := by
  cases A with
  | null =>
    cases B with
    | object mb => exact compareStringMaps_HasDiff_symm [] mb
    | array ys =>
      have hne : ys ≠ [] := fun h => h1 ⟨rfl, by rw [h]⟩
      show true = (compareArrays ys []).HasDiff
      rw [compareArrays_nil_right hne]
    | _ => rfl
  | array xs =>
    cases B with
    | array ys => exact compareArrays_HasDiff_symm xs ys
    | null =>
      have hne : xs ≠ [] := fun h => h2 ⟨by rw [h], rfl⟩
      show (compareArrays xs []).HasDiff = true
      rw [compareArrays_nil_right hne]
    | _ => rfl
  | object ma =>
    cases B with
    | object mb => exact compareStringMaps_HasDiff_symm ma mb
    | null => exact compareStringMaps_HasDiff_symm ma []
    | _ => rfl
  | bool b => cases B <;> rfl
  | number n => cases B <;> rfl
  | string s => cases B <;> rfl

/-- The symmetry of detection at a non-empty array against null, a pair of
different top-level shape. -/
theorem detection_symmetric_at_array_null :
    ¬ (Value.array [Value.number 1] = Value.null ∧ Value.null = Value.array []) ∧
    ¬ (Value.array [Value.number 1] = Value.array [] ∧ Value.null = Value.null) ∧
    (Compare genericJSON (Value.array [Value.number 1]) Value.null).HasDiff =
      (Compare genericJSON Value.null (Value.array [Value.number 1])).HasDiff :=
  ⟨by simp, by simp,
    detection_symmetric_off_null_emptyArray (Value.array [Value.number 1]) Value.null
      (by simp) (by simp)⟩

/-! ## Map reconciliation: keys and order -/

theorem mapItem_Resolution (A B : GoMap) (k : String) :
    (mapItem A B k).Resolution =
      match mapGet A k, mapGet B k with
      | none, _ => ResolutionType.TypeAdded
      | some _, none => ResolutionType.TypeRemoved
      | some vA, some vB => (compare vA vB).1 := by
  unfold mapItem firstPassItem
  cases hA : mapGet A k with
  | none => rfl
  | some vA =>
    cases hB : mapGet B k with
    | none => rfl
    | some vB => simp [bothItem_Resolution, mapIndex_of_get hA]

theorem mem_items_compareStringMaps {A B : GoMap} {it : DiffItem}
    (h : it ∈ (compareStringMaps A B).Items) :
    it = mapItem A B it.Key ∧
      ((mapGet A it.Key).isSome = true ∨ (mapGet B it.Key).isSome = true) := by
  unfold Diff.Items at h
  rw [compareStringMaps_items] at h
  obtain ⟨k, hk, rfl⟩ := List.mem_map.1 h
  rw [mapItem_Key]
  exact ⟨rfl, (mem_unionKeys A B k).1 hk⟩

theorem keys_compareStringMaps (A B : GoMap) :
    (compareStringMaps A B).Items.map DiffItem.Key = unionKeys A B := by
  unfold Diff.Items
  rw [compareStringMaps_items, map_Key_mapItem]

/-- C4: every key of `A` or `B` is the `Key` of exactly one item of
`compareStringMaps A B` and no other key occurs; an item is `TypeRemoved` iff its
key is bound in `A` only, `TypeAdded` iff in `B` only, and one of `TypeEquals`,
`TypeNotEquals`, `TypeDiff` iff in both; `Compare` of `{"a":1}` against `{"b":1}`
gives exactly Removed "a" and Added "b". -/
theorem C4_key_completeness (A B : GoMap) :
    (∀ k, k ∈ (compareStringMaps A B).Items.map DiffItem.Key ↔ (k ∈ mapKeys A ∨ k ∈ mapKeys B)) ∧
    (∀ k, (k ∈ mapKeys A ∨ k ∈ mapKeys B) →
      (compareStringMaps A B).Items.countP (fun it => it.Key == k) = 1) ∧
    (∀ it ∈ (compareStringMaps A B).Items,
      (it.Resolution = ResolutionType.TypeRemoved ↔
        (it.Key ∈ mapKeys A ∧ it.Key ∉ mapKeys B)) ∧
      (it.Resolution = ResolutionType.TypeAdded ↔
        (it.Key ∉ mapKeys A ∧ it.Key ∈ mapKeys B)) ∧
      ((it.Resolution = ResolutionType.TypeEquals ∨
        it.Resolution = ResolutionType.TypeNotEquals ∨
        it.Resolution = ResolutionType.TypeDiff) ↔
        (it.Key ∈ mapKeys A ∧ it.Key ∈ mapKeys B))) ∧
    (Compare genericJSON (Value.object [("a", Value.number 1)])
        (Value.object [("b", Value.number 1)])).Items =
      [DiffItem.mk "a" (Iface.val (Value.number 1)) ResolutionType.TypeRemoved Iface.nil,
       DiffItem.mk "b" Iface.nil ResolutionType.TypeAdded (Iface.val (Value.number 1))] := by
  refine ⟨fun k => ?_, fun k hk => ?_, fun it hit => ?_, ?_⟩
  · rw [keys_compareStringMaps, mem_unionKeys, mem_mapKeys, mem_mapKeys]
  · have hmem : k ∈ unionKeys A B := by
      rw [mem_unionKeys, ← mem_mapKeys, ← mem_mapKeys]
      exact hk
    have := List.count_eq_one_of_mem (nodup_unionKeys A B) hmem
    rw [← keys_compareStringMaps, List.count, List.countP_map] at this
    exact this
  · obtain ⟨hitem, hbound⟩ := mem_items_compareStringMaps hit
    rw [hitem, mapItem_Key, mapItem_Resolution, mem_mapKeys, mem_mapKeys]
    generalize it.Key = k at hbound
    cases hA : mapGet A k with
    | none =>
      cases hB : mapGet B k with
      | none => simp [hA, hB] at hbound
      | some vB => simp
    | some vA =>
      cases hB : mapGet B k with
      | none => simp
      | some vB =>
        have := compare_resolution vA vB
        simp only [Option.isSome_some, not_true_eq_false, and_false, and_self, iff_true,
          iff_false, false_and]
        refine ⟨?_, ?_, this⟩
        · rcases this with h | h | h <;> rw [h] <;> simp
        · rcases this with h | h | h <;> rw [h] <;> simp
  · rw [Compare_object_object]
    simp [Diff.Items, compareStringMaps, compare, deepEqual, index, Diff.Add,
      DiffItem.Resolution, sortedKeys, mapKeys, mapGet, mapIndex, Diff.sort, byKeyLess,
      DiffItem.Key]
    decide

theorem lookup_eq_some_iff_mem {m : GoMap} (hnd : (m.map Prod.fst).Nodup) (k : String)
    (v : Value) : List.lookup k m = some v ↔ (k, v) ∈ m := by
  induction m with
  | nil => simp
  | cons p tl ih =>
    obtain ⟨k1, v1⟩ := p
    simp only [List.map_cons, List.nodup_cons] at hnd
    rw [List.lookup_cons]
    by_cases hk : k = k1
    · subst hk
      simp only [beq_self_eq_true, Option.some.injEq, List.mem_cons, Prod.mk.injEq, true_and]
      constructor
      · intro h; exact Or.inl h.symm
      · rintro (h | h)
        · exact h.symm
        · exact absurd (List.mem_map_of_mem Prod.fst h) hnd.1
    · have hb : (k == k1) = false := by simpa using hk
      simp only [hb, List.mem_cons, Prod.mk.injEq, hk, false_and, false_or]
      exact ih hnd.2

/-- A map read through `mapGet` does not depend on the order of its entries. -/
theorem mapGet_eq_of_perm {m1 m2 : GoMap} (hp : m1.Perm m2)
    (hnd : (m1.map Prod.fst).Nodup) (k : String) : mapGet m1 k = mapGet m2 k := by
  have hnd2 : (m2.map Prod.fst).Nodup := (hp.map Prod.fst).nodup_iff.1 hnd
  unfold mapGet
  cases h1 : List.lookup k m1 with
  | none =>
    cases h2 : List.lookup k m2 with
    | none => rfl
    | some v =>
      have := (lookup_eq_some_iff_mem hnd k v).2 (hp.mem_iff.2 ((lookup_eq_some_iff_mem hnd2 k v).1 h2))
      rw [h1] at this
      cases this
  | some v =>
    exact ((lookup_eq_some_iff_mem hnd2 k v).2 (hp.mem_iff.1 ((lookup_eq_some_iff_mem hnd k v).1 h1))).symm

theorem unionKeys_congr {A B A2 B2 : GoMap} (hA : ∀ k, mapGet A k = mapGet A2 k)
    (hB : ∀ k, mapGet B k = mapGet B2 k) : unionKeys A B = unionKeys A2 B2 := by
  refine List.eq_of_perm_of_sorted ?_ (sorted_unionKeys A B) (sorted_unionKeys A2 B2)
  refine (List.perm_ext_iff_of_nodup (nodup_unionKeys A B) (nodup_unionKeys A2 B2)).2 (fun k => ?_)
  rw [mem_unionKeys, mem_unionKeys, hA k, hB k]

theorem mapItem_congr {A B A2 B2 : GoMap} (hA : ∀ k, mapGet A k = mapGet A2 k)
    (hB : ∀ k, mapGet B k = mapGet B2 k) (k : String) : mapItem A B k = mapItem A2 B2 k := by
  unfold mapItem firstPassItem mapIndex
  rw [hA k, hB k]

/-- The items of `compareStringMaps` depend on the two maps only through their
bindings. -/
theorem compareStringMaps_items_congr {A B A2 B2 : GoMap} (hA : ∀ k, mapGet A k = mapGet A2 k)
    (hB : ∀ k, mapGet B k = mapGet B2 k) :
    (compareStringMaps A B).items = (compareStringMaps A2 B2).items := by
  rw [compareStringMaps_items, compareStringMaps_items, unionKeys_congr hA hB]
  exact List.map_congr_left (fun k _ => mapItem_congr hA hB k)

/-- C5: the keys of the items of `compareStringMaps A B` are strictly ascending in
the order of strings, and the item sequence is the same for any other order of the
entries of `A` and of `B` (maps with distinct keys, listed in another order). -/
theorem C5_sorted_output (A B A2 B2 : GoMap)
    (hA : A.Perm A2) (hB : B.Perm B2)
    (hAk : (A.map Prod.fst).Nodup) (hBk : (B.map Prod.fst).Nodup) :
    ((compareStringMaps A B).Items.map DiffItem.Key).Sorted (· < ·) ∧
    (compareStringMaps A2 B2).Items = (compareStringMaps A B).Items := by
  constructor
  · rw [keys_compareStringMaps]
    exact (sorted_unionKeys A B).lt_of_le (nodup_unionKeys A B)
  · exact (compareStringMaps_items_congr (mapGet_eq_of_perm hA hAk)
      (mapGet_eq_of_perm hB hBk)).symm

/-- The sorted output at two maps listed in two orders. -/
theorem C5_sorted_output_witness :
    ([("b", Value.number 1), ("a", Value.number 2)] : GoMap).Perm
      [("a", Value.number 2), ("b", Value.number 1)] ∧
    ([("c", Value.null), ("a", Value.number 2)] : GoMap).Perm
      [("a", Value.number 2), ("c", Value.null)] ∧
    (([("b", Value.number 1), ("a", Value.number 2)] : GoMap).map Prod.fst).Nodup ∧
    (([("c", Value.null), ("a", Value.number 2)] : GoMap).map Prod.fst).Nodup ∧
    (((compareStringMaps [("b", Value.number 1), ("a", Value.number 2)]
        [("c", Value.null), ("a", Value.number 2)]).Items.map DiffItem.Key).Sorted (· < ·) ∧
     (compareStringMaps [("a", Value.number 2), ("b", Value.number 1)]
        [("a", Value.number 2), ("c", Value.null)]).Items =
      (compareStringMaps [("b", Value.number 1), ("a", Value.number 2)]
        [("c", Value.null), ("a", Value.number 2)]).Items) :=
  ⟨List.Perm.swap _ _ _, List.Perm.swap _ _ _, by decide, by decide,
    C5_sorted_output _ _ _ _ (List.Perm.swap _ _ _) (List.Perm.swap _ _ _)
      (by decide) (by decide)⟩

/-! ## Sequence reconciliation -/

theorem filter_range_of_le (m : Nat) (n : Nat) (h : n ≤ m) :
    (List.range n).filter (fun i => decide (m ≤ i)) = [] := by
  rw [List.filter_eq_nil_iff]
  intro i hi
  have := List.mem_range.1 hi
  simp
  omega

theorem range_eq_append_filter (m d : Nat) :
    List.range (m + d) = List.range m ++ (List.range (m + d)).filter (fun i => decide (m ≤ i)) := by
  induction d with
  | zero => simp [filter_range_of_le m m (Nat.le_refl _)]
  | succ d ih =>
    rw [← Nat.add_assoc, List.range_succ, List.filter_append]
    conv => lhs; rw [ih]
    simp

theorem arrayItems_eq_map (A B : List Value) :
    arrayItems A B = (List.range (max A.length B.length)).map (arrayItem A B) := by
  unfold arrayItems
  rw [minLength_eq_min]
  rcases Nat.le_total A.length B.length with h | h
  · have hmin : min A.length B.length = A.length := Nat.min_eq_left h
    have hmax : max A.length B.length = B.length := Nat.max_eq_right h
    rw [hmin, hmax, filter_range_of_le _ _ (Nat.le_refl _)]
    obtain ⟨d, hd⟩ := Nat.exists_eq_add_of_le h
    rw [hd]
    conv => rhs; rw [range_eq_append_filter, List.map_append]
    simp only [List.map_nil, List.nil_append]
    congr 1
    · apply List.map_congr_left
      intro i hi
      have := List.mem_range.1 hi
      simp [arrayItem, minLength_eq_min, hmin, this]
    · apply List.map_congr_left
      intro i hi
      have := (List.mem_filter.1 hi).2
      simp only [decide_eq_true_eq] at this
      have h1 : ¬ i < A.length := by omega
      simp [arrayItem, minLength_eq_min, hmin, h1]
  · have hmin : min A.length B.length = B.length := Nat.min_eq_right h
    have hmax : max A.length B.length = A.length := Nat.max_eq_left h
    rw [hmin, hmax, filter_range_of_le _ _ (Nat.le_refl _)]
    obtain ⟨d, hd⟩ := Nat.exists_eq_add_of_le h
    rw [hd]
    conv => rhs; rw [range_eq_append_filter, List.map_append]
    simp only [List.map_nil, List.append_nil]
    congr 1
    · apply List.map_congr_left
      intro i hi
      have := List.mem_range.1 hi
      simp [arrayItem, minLength_eq_min, hd, this]
    · apply List.map_congr_left
      intro i hi
      have := List.mem_filter.1 hi
      have h2 := List.mem_range.1 this.1
      have h3 := this.2
      simp only [decide_eq_true_eq] at h3
      have h1 : ¬ i < B.length := by omega
      have h4 : i < A.length := by omega
      simp [arrayItem, minLength_eq_min, hmin, h1, h4]

theorem getElem?_compareArrays (A B : List Value) (i : Nat)
    (h : i < max A.length B.length) :
    (compareArrays A B).Items[i]? = some (arrayItem A B i) := by
  unfold Diff.Items
  rw [compareArrays_items, arrayItems_eq_map, List.getElem?_map, List.getElem?_range h]
  rfl

theorem length_compareArrays (A B : List Value) :
    (compareArrays A B).Items.length = max A.length B.length := by
  unfold Diff.Items
  rw [compareArrays_items, arrayItems_eq_map, List.length_map, List.length_range]

theorem arrayItem_Key (A B : List Value) (i : Nat) : (arrayItem A B i).Key = "" := by
  unfold arrayItem
  split
  · exact bothItem_Key _ _ _
  · split <;> rfl

/-- C6: `compareArrays A B` returns `max (len A) (len B)` items, all with empty
`Key`; below `min (len A) (len B)` item `i` is the outcome of comparing `A[i]` with
`B[i]` (Equal, NotEqual or Diff); from there on the items are Added carrying `B[i]`
when `B` is longer, Removed carrying `A[i]` when `A` is longer, in index order;
`Compare` of `[1,2]` against `[1,2,3]` gives Equal, Equal,
Added 3. -/
theorem C6_sequence_length_handling (A B : List Value) :
    (compareArrays A B).Items.length = max A.length B.length ∧
    (∀ it ∈ (compareArrays A B).Items, it.Key = "") ∧
    (∀ i, i < min A.length B.length →
      (compareArrays A B).Items[i]? = some (bothItem "" (index A i) (index B i)) ∧
      (bothItem "" (index A i) (index B i)).Resolution = (compare (index A i) (index B i)).1 ∧
      ((compare (index A i) (index B i)).1 = ResolutionType.TypeEquals ∨
       (compare (index A i) (index B i)).1 = ResolutionType.TypeNotEquals ∨
       (compare (index A i) (index B i)).1 = ResolutionType.TypeDiff)) ∧
    (∀ i, min A.length B.length ≤ i → i < B.length →
      (compareArrays A B).Items[i]? =
        some (DiffItem.mk "" Iface.nil ResolutionType.TypeAdded (Iface.val (index B i)))) ∧
    (∀ i, min A.length B.length ≤ i → i < A.length →
      (compareArrays A B).Items[i]? =
        some (DiffItem.mk "" (Iface.val (index A i)) ResolutionType.TypeRemoved Iface.nil)) ∧
    (Compare genericJSON (Value.array [Value.number 1, Value.number 2])
        (Value.array [Value.number 1, Value.number 2, Value.number 3])).Items =
      [DiffItem.mk "" (Iface.val (Value.number 1)) ResolutionType.TypeEquals Iface.nil,
       DiffItem.mk "" (Iface.val (Value.number 2)) ResolutionType.TypeEquals Iface.nil,
       DiffItem.mk "" Iface.nil ResolutionType.TypeAdded (Iface.val (Value.number 3))] := by
  refine ⟨length_compareArrays A B, fun it hit => ?_, fun i hi => ⟨?_, bothItem_Resolution _ _ _,
    compare_resolution _ _⟩, fun i hm hi => ?_, fun i hm hi => ?_, ?_⟩
  · unfold Diff.Items at hit
    rw [compareArrays_items, arrayItems_eq_map] at hit
    obtain ⟨i, _, rfl⟩ := List.mem_map.1 hit
    exact arrayItem_Key A B i
  · rw [getElem?_compareArrays A B i (by omega)]
    simp [arrayItem, minLength_eq_min, hi]
  · rw [getElem?_compareArrays A B i (by omega)]
    have h1 : ¬ i < min A.length B.length := by omega
    have h2 : ¬ i < A.length := by omega
    simp only [arrayItem, minLength_eq_min, h1, h2, if_false]
    rfl
  · rw [getElem?_compareArrays A B i (by omega)]
    have h1 : ¬ i < min A.length B.length := by omega
    simp only [arrayItem, minLength_eq_min, h1, hi, if_false, if_true]
    rfl
  · rw [Compare_array_array]
    rw [show (Diff.Items { compareArrays [Value.number 1, Value.number 2]
        [Value.number 1, Value.number 2, Value.number 3] with isArray := true }) =
        arrayItems _ _ from compareArrays_items _ _]
    simp [arrayItems, minLength, bothItem, compare, deepEqual, index, removedItem, addedItem,
      List.range, List.range.loop]

/-! ## The four outcomes of `compare` -/

/-- C7: `compare A B` returns `TypeEquals` with no sub-items iff `A` and `B` are
structurally equal; otherwise `TypeDiff` with `compareStringMaps` of the two
mappings when both are mappings, `TypeDiff` with `compareArrays` of the two
sequences when both are sequences, and `TypeNotEquals` with no sub-items in every
other case; being a total function it returns in every case. -/
theorem C7_four_way_classification (A B : Value) :
    ((compare A B).1 = ResolutionType.TypeEquals ↔ StructEq A B) ∧
    (StructEq A B → compare A B = (ResolutionType.TypeEquals, {}) ∧
      (compare A B).2.Items = []) ∧
    (¬ StructEq A B → ∀ mapA mapB, A = Value.object mapA → B = Value.object mapB →
      compare A B = (ResolutionType.TypeDiff, compareStringMaps mapA mapB)) ∧
    (¬ StructEq A B → ∀ arrayA arrayB, A = Value.array arrayA → B = Value.array arrayB →
      compare A B = (ResolutionType.TypeDiff, compareArrays arrayA arrayB)) ∧
    (¬ StructEq A B → sameContainer A B = false →
      compare A B = (ResolutionType.TypeNotEquals, {}) ∧ (compare A B).2.Items = []) := by
  have hne : ¬ StructEq A B → deepEqual A B = false := fun h => by
    cases hd : deepEqual A B
    · rfl
    · exact absurd ((deepEqual_iff_structEq A B).1 hd) h
  refine ⟨(compare_fst_eq_equals A B).trans (deepEqual_iff_structEq A B), fun h => ?_,
    fun h mapA mapB hA hB => ?_, fun h arrayA arrayB hA hB => ?_, fun h hc => ?_⟩
  · rw [compare_of_deepEqual ((deepEqual_iff_structEq A B).2 h)]
    exact ⟨rfl, rfl⟩
  · subst hA hB
    exact compare_object (hne h)
  · subst hA hB
    exact compare_array (hne h)
  · rw [compare_other (hne h) hc]
    exact ⟨rfl, rfl⟩

/-! ## Field population -/

theorem populated_bothItem (k : String) (vA vB : Value)
    (hm : ∀ mapA mapB, vA = Value.object mapA → vB = Value.object mapB →
      ∀ it, it ∈ (compareStringMaps mapA mapB).Items →
        Populated (mapGet mapA it.Key) (mapGet mapB it.Key) it)
    (ha : ∀ arrayA arrayB, vA = Value.array arrayA → vB = Value.array arrayB →
      ∀ (i : Nat) (it : DiffItem), (compareArrays arrayA arrayB).Items[i]? = some it →
        Populated arrayA[i]? arrayB[i]? it) :
    Populated (some vA) (some vB) (bothItem k vA vB) := by
  unfold bothItem
  cases hd : deepEqual vA vB
  · cases hc : sameContainer vA vB
    · rw [compare_other hd hc]
      exact .notEqual k vA vB
    · cases vA <;> cases vB <;> simp [sameContainer] at hc
      · rw [compare_array hd]
        exact .diffArrays k _ _ hd (ha _ _ rfl rfl)
      · rw [compare_object hd]
        exact .diffMaps k _ _ hd (hm _ _ rfl rfl)
  · rw [compare_of_deepEqual hd]
    exact .equal k vA vB

theorem getElem?_eq_some_index {xs : List Value} {i : Nat} (h : i < xs.length) :
    xs[i]? = some (index xs i) := by
  unfold index
  simp [List.getD, List.getElem?_eq_getElem h]

theorem populated_aux (n : Nat) :
    (∀ A B : GoMap, sizeOf A ≤ n → ∀ it, it ∈ (compareStringMaps A B).Items →
      Populated (mapGet A it.Key) (mapGet B it.Key) it) ∧
    (∀ X Y : List Value, sizeOf X ≤ n → ∀ (i : Nat) (it : DiffItem), (compareArrays X Y).Items[i]? = some it →
      Populated X[i]? Y[i]? it) := by
  induction n with
  | zero =>
    constructor
    · intro A B h
      cases A <;> simp at h
    · intro X Y h
      cases X <;> simp at h
  | succ n ih =>
    constructor
    · intro A B hsz it hit
      obtain ⟨hitem, hbound⟩ := mem_items_compareStringMaps hit
      rw [hitem, mapItem_Key]
      generalize it.Key = k at hbound
      unfold mapItem firstPassItem
      cases hA : mapGet A k with
      | none =>
        cases hB : mapGet B k with
        | none => simp [hA, hB] at hbound
        | some vB =>
          simp only [mapIndex_of_get hB]
          exact .added k vB
      | some vA =>
        have hlt := sizeOf_lookup_le k A vA hA
        cases hB : mapGet B k with
        | none =>
          simp only [mapIndex_of_get hA]
          exact .removed k vA
        | some vB =>
          simp only [mapIndex_of_get hA]
          refine populated_bothItem k vA vB (fun mapA mapB h1 _ => ?_) (fun arrayA arrayB h1 _ => ?_)
          · subst h1
            simp at hlt
            exact ih.1 mapA mapB (by omega)
          · subst h1
            simp at hlt
            exact ih.2 arrayA arrayB (by omega)
    · intro X Y hsz i it hit
      have hi : i < max X.length Y.length := by
        rw [← length_compareArrays]
        exact (List.getElem?_eq_some_iff.1 hit).1
      rw [getElem?_compareArrays X Y i hi] at hit
      injection hit with hit
      subst hit
      unfold arrayItem
      rw [minLength_eq_min]
      by_cases h1 : i < min X.length Y.length
      · have hX : i < X.length := by omega
        have hY : i < Y.length := by omega
        rw [if_pos h1, getElem?_eq_some_index hX, getElem?_eq_some_index hY]
        have hle := sizeOf_index_le X i
        refine populated_bothItem "" _ _ (fun mapA mapB h1 _ => ?_) (fun arrayA arrayB h1 _ => ?_)
        · rw [h1] at hle
          simp at hle
          exact ih.1 mapA mapB (by omega)
        · rw [h1] at hle
          simp at hle
          exact ih.2 arrayA arrayB (by omega)
      · rw [if_neg h1]
        by_cases h2 : i < X.length
        · have hY : Y.length ≤ i := by omega
          rw [if_pos h2, getElem?_eq_some_index h2, List.getElem?_eq_none hY]
          exact .removed _ _
        · have hY : i < Y.length := by omega
          rw [if_neg h2, getElem?_eq_some_index hY, List.getElem?_eq_none (by omega)]
          exact .added _ _

/-- What `Populated` says field by field. -/
theorem Populated.fields {a b : Option Value} {it : DiffItem} (h : Populated a b it) :
    (it.Resolution = ResolutionType.TypeEquals →
      ∃ vA, a = some vA ∧ it.ValueA = Iface.val vA ∧ it.ValueB = Iface.nil) ∧
    (it.Resolution = ResolutionType.TypeNotEquals →
      ∃ vA vB, a = some vA ∧ b = some vB ∧ it.ValueA = Iface.val vA ∧ it.ValueB = Iface.val vB) ∧
    (it.Resolution = ResolutionType.TypeAdded →
      ∃ vB, a = none ∧ b = some vB ∧ it.ValueA = Iface.nil ∧ it.ValueB = Iface.val vB) ∧
    (it.Resolution = ResolutionType.TypeRemoved →
      ∃ vA, a = some vA ∧ b = none ∧ it.ValueA = Iface.val vA ∧ it.ValueB = Iface.nil) ∧
    (it.Resolution = ResolutionType.TypeDiff →
      ∃ vA vB, a = some vA ∧ b = some vB ∧ it.ValueA = Iface.nil ∧
        it.ValueB = Iface.items (compare vA vB).2.Items) := by
  cases h with
  | equal k vA vB =>
    simp only [DiffItem.Resolution, DiffItem.ValueA, DiffItem.ValueB]
    simp
  | notEqual k vA vB =>
    simp only [DiffItem.Resolution, DiffItem.ValueA, DiffItem.ValueB]
    simp
  | added k vB =>
    simp only [DiffItem.Resolution, DiffItem.ValueA, DiffItem.ValueB]
    simp
  | removed k vA =>
    simp only [DiffItem.Resolution, DiffItem.ValueA, DiffItem.ValueB]
    simp
  | diffMaps k mapA mapB hne hsub =>
    simp only [DiffItem.Resolution, DiffItem.ValueA, DiffItem.ValueB]
    simp [compare_object hne]
  | diffArrays k arrayA arrayB hne hsub =>
    simp only [DiffItem.Resolution, DiffItem.ValueA, DiffItem.ValueB]
    simp [compare_array hne]

/-- C8: every item of `compareStringMaps` and of `compareArrays`, at any depth, has
its fields populated by its Resolution: Equal has `ValueA` the left value and
`ValueB` nil; NotEqual has both values; Added has `ValueA` nil and `ValueB` the
right value; Removed has `ValueA` the left value and `ValueB` nil; Diff has
`ValueA` nil and `ValueB` the item list of the comparison of the two sub-values,
whose items are populated in the same way. -/
theorem C8_field_population (A B : GoMap) (X Y : List Value) :
    (∀ it, it ∈ (compareStringMaps A B).Items →
      Populated (mapGet A it.Key) (mapGet B it.Key) it) ∧
    (∀ (i : Nat) (it : DiffItem), (compareArrays X Y).Items[i]? = some it →
      Populated X[i]? Y[i]? it) ∧
    (∀ (a b : Option Value) (it : DiffItem), Populated a b it →
      (it.Resolution = ResolutionType.TypeEquals →
        ∃ vA, a = some vA ∧ it.ValueA = Iface.val vA ∧ it.ValueB = Iface.nil) ∧
      (it.Resolution = ResolutionType.TypeNotEquals →
        ∃ vA vB, a = some vA ∧ b = some vB ∧
          it.ValueA = Iface.val vA ∧ it.ValueB = Iface.val vB) ∧
      (it.Resolution = ResolutionType.TypeAdded →
        ∃ vB, a = none ∧ b = some vB ∧ it.ValueA = Iface.nil ∧ it.ValueB = Iface.val vB) ∧
      (it.Resolution = ResolutionType.TypeRemoved →
        ∃ vA, a = some vA ∧ b = none ∧ it.ValueA = Iface.val vA ∧ it.ValueB = Iface.nil) ∧
      (it.Resolution = ResolutionType.TypeDiff →
        ∃ vA vB, a = some vA ∧ b = some vB ∧ it.ValueA = Iface.nil ∧
          it.ValueB = Iface.items (compare vA vB).2.Items)) ∧
    (Compare genericJSON
        (Value.object [("a", Value.object [("x", Value.number 1)])])
        (Value.object [("a", Value.object [("x", Value.number 2)])])).Items =
      [DiffItem.mk "a" Iface.nil ResolutionType.TypeDiff
        (Iface.items [DiffItem.mk "x" (Iface.val (Value.number 1))
          ResolutionType.TypeNotEquals (Iface.val (Value.number 2))])] := by
  refine ⟨(populated_aux (sizeOf A)).1 A B (Nat.le_refl _),
    (populated_aux (sizeOf X)).2 X Y (Nat.le_refl _), fun a b it h => h.fields, ?_⟩
  rw [Compare_object_object]
  simp [Diff.Items, compareStringMaps, compare, deepEqual, index, Diff.Add,
      DiffItem.Resolution, sortedKeys, mapKeys, mapGet, mapIndex, mapLen, Diff.sort,
      byKeyLess, DiffItem.Key]

/-! ## The `HasDiff` flag -/

theorem any_nonEqual_iff (l : List DiffItem) :
    l.any nonEqual = true ↔ ∃ it, it ∈ l ∧ it.Resolution ≠ ResolutionType.TypeEquals := by
  simp [List.any_eq_true, nonEqual]

theorem compareStringMaps_items_perm (A B : GoMap) :
    (compareStringMaps A B).items.Perm (mapItems A B) := by
  rw [compareStringMaps_eq]
  refine (sort_items_perm _).trans ?_
  rw [foldl_Add]
  simp

theorem compareStringMaps_HasDiff_iff_exists (A B : GoMap) :
    (compareStringMaps A B).HasDiff = true ↔
      ∃ it, it ∈ (compareStringMaps A B).Items ∧ it.Resolution ≠ ResolutionType.TypeEquals := by
  rw [compareStringMaps_HasDiff, any_nonEqual_iff]
  unfold Diff.Items
  constructor
  · rintro ⟨it, h1, h2⟩
    exact ⟨it, (compareStringMaps_items_perm A B).mem_iff.2 h1, h2⟩
  · rintro ⟨it, h1, h2⟩
    exact ⟨it, (compareStringMaps_items_perm A B).mem_iff.1 h1, h2⟩

theorem compareArrays_HasDiff_iff_exists (X Y : List Value) :
    (compareArrays X Y).HasDiff = true ↔
      ∃ it, it ∈ (compareArrays X Y).Items ∧ it.Resolution ≠ ResolutionType.TypeEquals := by
  rw [compareArrays_HasDiff, any_nonEqual_iff]
  unfold Diff.Items
  rw [compareArrays_items]

theorem nested_top {it : DiffItem} {l : List DiffItem} (h : Nested it l)
    (hr : it.Resolution ≠ ResolutionType.TypeEquals) :
    ∃ top, top ∈ l ∧ top.Resolution ≠ ResolutionType.TypeEquals := by
  match h with
  | .top _ _ h => exact ⟨it, h, hr⟩
  | .inside _ parent sub _ hp hpr hv h => exact ⟨parent, hp, by rw [hpr]; simp⟩

/-- C9: a `Diff` built from the empty `Diff` by `Add` calls has `HasDiff` true iff
one of its items has a Resolution other than `TypeEquals`; so have the results of
`compareStringMaps` (after its sort) and of `compareArrays`; hence an item other
than Equal at any depth makes `HasDiff` true, at the root and in the sub-result of
every enclosing `TypeDiff` level. -/
theorem C9_hasDiff_invariant (l : List DiffItem) (A B : GoMap) (X Y : List Value) :
    ((l.foldl Diff.Add {}).Items = l) ∧
    ((l.foldl Diff.Add {}).HasDiff = true ↔
      ∃ it, it ∈ (l.foldl Diff.Add {}).Items ∧ it.Resolution ≠ ResolutionType.TypeEquals) ∧
    ((compareStringMaps A B).HasDiff = true ↔
      ∃ it, it ∈ (compareStringMaps A B).Items ∧ it.Resolution ≠ ResolutionType.TypeEquals) ∧
    ((compareArrays X Y).HasDiff = true ↔
      ∃ it, it ∈ (compareArrays X Y).Items ∧ it.Resolution ≠ ResolutionType.TypeEquals) ∧
    (∀ it, Nested it (compareStringMaps A B).Items →
      it.Resolution ≠ ResolutionType.TypeEquals → (compareStringMaps A B).HasDiff = true) ∧
    (∀ it, Nested it (compareArrays X Y).Items →
      it.Resolution ≠ ResolutionType.TypeEquals → (compareArrays X Y).HasDiff = true) ∧
    (∀ vA vB : Value, (compare vA vB).1 = ResolutionType.TypeDiff →
      (compare vA vB).2.HasDiff = true ∧
      ∃ it, it ∈ (compare vA vB).2.Items ∧ it.Resolution ≠ ResolutionType.TypeEquals) := by
  have hfold : (l.foldl Diff.Add {}).Items = l := by
    unfold Diff.Items
    rw [foldl_Add]
    simp
  refine ⟨hfold, ?_, compareStringMaps_HasDiff_iff_exists A B,
    compareArrays_HasDiff_iff_exists X Y, fun it hn hr => ?_, fun it hn hr => ?_,
    fun vA vB h => ?_⟩
  · rw [hfold, foldl_Add]
    simpa using any_nonEqual_iff l
  · exact (compareStringMaps_HasDiff_iff_exists A B).2 (nested_top hn hr)
  · exact (compareArrays_HasDiff_iff_exists X Y).2 (nested_top hn hr)
  · cases hd : deepEqual vA vB
    · cases hc : sameContainer vA vB
      · rw [compare_other hd hc] at h
        simp at h
      · cases vA <;> cases vB <;> simp [sameContainer] at hc
        · rename_i xs ys
          rw [compare_array hd]
          have hh : (compareArrays xs ys).HasDiff = true := by
            cases hx : (compareArrays xs ys).HasDiff
            · rw [(compareArrays_HasDiff_iff xs ys).1 hx] at hd
              cases hd
            · rfl
          exact ⟨hh, (compareArrays_HasDiff_iff_exists xs ys).1 hh⟩
        · rename_i ma mb
          rw [compare_object hd]
          have hh : (compareStringMaps ma mb).HasDiff = true := by
            cases hx : (compareStringMaps ma mb).HasDiff
            · rw [(compareStringMaps_HasDiff_iff ma mb).1 hx] at hd
              cases hd
            · rfl
          exact ⟨hh, (compareStringMaps_HasDiff_iff_exists ma mb).1 hh⟩
    · rw [compare_of_deepEqual hd] at h
      simp at h

/-! ## Aborted comparisons -/

/-- C10: `Compare` returns `Diff{HasDiff: true, Err: e}`, with no items, when
marshalling `a` fails with `e`; when marshalling `b` fails with `e`; when the text
of `a` decodes neither as a map nor, with error `e`, as an array; when the text of
`a` decodes as an array and that of `b` does not, with error `e`; and when the
text of `a` decodes as a map and that of `b` does not, with error `e`; so does
`Compare` of a string against an object. -/
theorem C10_abort_on_undecodable_input {α J : Type} (json : Codec α J) (a b : α) :
    (∀ e, json.Marshal a = .error e →
      Compare json a b = { items := [], isArray := false, Err := some e, HasDiff := true }) ∧
    (∀ jsonA e, json.Marshal a = .ok jsonA → json.Marshal b = .error e →
      Compare json a b = { items := [], isArray := false, Err := some e, HasDiff := true }) ∧
    (∀ jsonA jsonB e1 e, json.Marshal a = .ok jsonA → json.Marshal b = .ok jsonB →
      json.UnmarshalMap jsonA = .error e1 → json.UnmarshalArray jsonA = .error e →
      Compare json a b = { items := [], isArray := false, Err := some e, HasDiff := true }) ∧
    (∀ jsonA jsonB e1 arrA e, json.Marshal a = .ok jsonA → json.Marshal b = .ok jsonB →
      json.UnmarshalMap jsonA = .error e1 → json.UnmarshalArray jsonA = .ok arrA →
      json.UnmarshalArray jsonB = .error e →
      Compare json a b = { items := [], isArray := false, Err := some e, HasDiff := true }) ∧
    (∀ jsonA jsonB mapA e, json.Marshal a = .ok jsonA → json.Marshal b = .ok jsonB →
      json.UnmarshalMap jsonA = .ok mapA → json.UnmarshalMap jsonB = .error e →
      Compare json a b = { items := [], isArray := false, Err := some e, HasDiff := true }) ∧
    Compare genericJSON (Value.string "e2JhZA==") (Value.object [("a", Value.number 1)]) =
      { items := [], isArray := false,
        Err := some "json: cannot unmarshal string into Go value of type []interface \x7b\x7d",
        HasDiff := true } := by
  refine ⟨fun e h => ?_, fun jsonA e h1 h2 => ?_, fun jsonA jsonB e1 e h1 h2 h3 h4 => ?_,
    fun jsonA jsonB e1 arrA e h1 h2 h3 h4 h5 => ?_, fun jsonA jsonB mapA e h1 h2 h3 h4 => ?_,
    ?_⟩
  · simp [Compare, h]
  · simp [Compare, h1, h2]
  · simp [Compare, h1, h2, h3, h4]
  · simp [Compare, h1, h2, h3, h4, h5]
  · simp [Compare, h1, h2, h3, h4]
  · simp [Compare, genericJSON, unmarshalMap, unmarshalArray, kindName]

/-! ## Aborts of the file comparisons -/

/-- C11, as the code has it: in `CompareFiles` and `CompareMemToFile`, when the
left side's bytes decode neither as an object nor as an array (so also when
neither side's do), the result is `Diff{HasDiff: true}`, as in every other abort
of these functions: unreadable file, right side not decoding in the shape of the
left; a result with `HasDiff = false` comes from a completed comparison only. -/
theorem C11_aborts_of_file_comparisons {α J : Type} (json : Codec α J)
    (ReadFile : String → Except Error J) (a : α) (afn bfn : String) :
    (∀ jsonA jsonB e1 e2, ReadFile afn = .ok jsonA → ReadFile bfn = .ok jsonB →
      json.UnmarshalMap jsonA = .error e1 → json.UnmarshalArray jsonA = .error e2 →
      CompareFiles json ReadFile afn bfn =
        { items := [], isArray := false, Err := none, HasDiff := true }) ∧
    (∀ jsonA jsonB e1 e2, json.Marshal a = .ok jsonA → ReadFile bfn = .ok jsonB →
      json.UnmarshalMap jsonA = .error e1 → json.UnmarshalArray jsonA = .error e2 →
      CompareMemToFile json ReadFile a bfn =
        { items := [], isArray := false, Err := none, HasDiff := true }) ∧
    ((CompareFiles json ReadFile afn bfn).HasDiff = false →
      ∃ jsonA jsonB, ReadFile afn = .ok jsonA ∧ ReadFile bfn = .ok jsonB ∧
        ((∃ mapA mapB, json.UnmarshalMap jsonA = .ok mapA ∧ json.UnmarshalMap jsonB = .ok mapB ∧
            CompareFiles json ReadFile afn bfn = compareStringMaps mapA mapB) ∨
         (∃ arrA arrB, json.UnmarshalArray jsonA = .ok arrA ∧
            json.UnmarshalArray jsonB = .ok arrB ∧
            CompareFiles json ReadFile afn bfn =
              { compareArrays arrA arrB with isArray := true }))) ∧
    ((CompareMemToFile json ReadFile a bfn).HasDiff = false →
      ∃ jsonA jsonB, json.Marshal a = .ok jsonA ∧ ReadFile bfn = .ok jsonB ∧
        ((∃ mapA mapB, json.UnmarshalMap jsonA = .ok mapA ∧ json.UnmarshalMap jsonB = .ok mapB ∧
            CompareMemToFile json ReadFile a bfn = compareStringMaps mapA mapB) ∨
         (∃ arrA arrB, json.UnmarshalArray jsonA = .ok arrA ∧
            json.UnmarshalArray jsonB = .ok arrB ∧
            CompareMemToFile json ReadFile a bfn =
              { compareArrays arrA arrB with isArray := true }))) := by
  refine ⟨fun jsonA jsonB e1 e2 h1 h2 h3 h4 => ?_, fun jsonA jsonB e1 e2 h1 h2 h3 h4 => ?_,
    fun h => ?_, fun h => ?_⟩
  · simp [CompareFiles, h1, h2, h3, h4, errOf]
  · simp [CompareMemToFile, h1, h2, h3, h4, errOf]
  · unfold CompareFiles at h ⊢
    cases hA : ReadFile afn with
    | error e => simp [hA] at h
    | ok jsonA =>
      cases hB : ReadFile bfn with
      | error e => simp [hA, hB] at h
      | ok jsonB =>
        refine ⟨jsonA, jsonB, rfl, rfl, ?_⟩
        simp only [hA, hB] at h ⊢
        cases hmA : json.UnmarshalMap jsonA with
        | error e =>
          cases haA : json.UnmarshalArray jsonA with
          | error e2 => simp [hmA, haA, errOf] at h
          | ok arrA =>
            cases haB : json.UnmarshalArray jsonB with
            | error e3 => simp [hmA, haA, haB, errOf] at h
            | ok arrB =>
              right
              exact ⟨arrA, arrB, rfl, rfl, by simp [hmA, errOf, arrOf]⟩
        | ok mapA =>
          cases hmB : json.UnmarshalMap jsonB with
          | error e3 => simp [hmA, hmB, errOf] at h
          | ok mapB =>
            left
            exact ⟨mapA, mapB, rfl, rfl, by simp [errOf, mapOf]⟩
  · unfold CompareMemToFile at h ⊢
    cases hA : json.Marshal a with
    | error e => simp [hA] at h
    | ok jsonA =>
      cases hB : ReadFile bfn with
      | error e => simp [hA, hB] at h
      | ok jsonB =>
        refine ⟨jsonA, jsonB, rfl, rfl, ?_⟩
        simp only [hA, hB] at h ⊢
        cases hmA : json.UnmarshalMap jsonA with
        | error e =>
          cases haA : json.UnmarshalArray jsonA with
          | error e2 => simp [hmA, haA, errOf] at h
          | ok arrA =>
            cases haB : json.UnmarshalArray jsonB with
            | error e3 => simp [hmA, haA, haB, errOf] at h
            | ok arrB =>
              right
              exact ⟨arrA, arrB, rfl, rfl, by simp [hmA, errOf, arrOf]⟩
        | ok mapA =>
          cases hmB : json.UnmarshalMap jsonB with
          | error e3 => simp [hmA, hmB, errOf] at h
          | ok mapB =>
            left
            exact ⟨mapA, mapB, rfl, rfl, by simp [errOf, mapOf]⟩

/-- C11 as stated fails: with two files holding the JSON text `1`, which decodes
neither as an object nor as an array, `CompareFiles` and `CompareMemToFile` return
`HasDiff = true`. -/
theorem C11_counterexample_neither_parses :
    ¬ ((CompareFiles genericJSON (fun _ => Except.ok (Value.number 1)) "a" "b").HasDiff = false) ∧
    ¬ ((CompareMemToFile genericJSON (fun _ => Except.ok (Value.number 1))
        (Value.number 1) "b").HasDiff = false) := by
  constructor <;>
    simp [CompareFiles, CompareMemToFile, genericJSON, unmarshalMap, unmarshalArray, errOf]

theorem writeItemsLoop_nil (marshal : Iface → String) (pfx : String) (isArray : Bool)
    (last : Int) (i : Nat) : writeItemsLoop marshal pfx isArray last i [] = some [] := by
  rw [writeItemsLoop]

theorem writeItemsLoop_cons (marshal : Iface → String) (pfx : String) (isArray : Bool)
    (last : Int) (i : Nat) (item : DiffItem) (rest : List DiffItem) :
    writeItemsLoop marshal pfx isArray last i (item :: rest) =
      match writeItemsSwitch marshal pfx isArray (decide ((i : Int) < last)) item with
      | none => none
      | some here =>
        match writeItemsLoop marshal pfx isArray last (i + 1) rest with
        | none => none
        | some more => some ([Chunk.text "\n"] ++ here ++ more) := by
  rw [writeItemsLoop]

theorem writeItemsLoop_eq_some (marshal : Iface → String) (pfx : String) (isArray : Bool)
    (last : Int) :
    ∀ (items : List DiffItem) (i : Nat) (body : List Chunk),
      writeItemsLoop marshal pfx isArray last i items = some body ↔
        ∃ parts : List (List Chunk), parts.length = items.length ∧
          (∀ (j : Nat) (item : DiffItem), items[j]? = some item →
            ∃ part, parts[j]? = some part ∧
              writeItemsSwitch marshal pfx isArray (decide (((i + j : Nat) : Int) < last)) item =
                some part) ∧
          body = joinParts parts
  | [], i, body => by
    rw [writeItemsLoop_nil]
    constructor
    · intro h
      injection h with h
      exact ⟨[], rfl, fun j item hj => by simp at hj, by rw [← h]; rfl⟩
    · rintro ⟨parts, hlen, _, hbody⟩
      have : parts = [] := List.length_eq_zero.1 hlen
      subst this
      rw [hbody]
      rfl
  | item :: rest, i, body => by
    rw [writeItemsLoop_cons]
    have ih := writeItemsLoop_eq_some marshal pfx isArray last rest (i + 1)
    constructor
    · intro h
      cases hs : writeItemsSwitch marshal pfx isArray (decide ((i : Int) < last)) item with
      | none => simp [hs] at h
      | some here =>
        cases hl : writeItemsLoop marshal pfx isArray last (i + 1) rest with
        | none => simp [hs, hl] at h
        | some more =>
          simp only [hs, hl, Option.some.injEq] at h
          obtain ⟨parts, hlen, hparts, hmore⟩ := (ih more).1 hl
          refine ⟨here :: parts, by simp [hlen], ?_, ?_⟩
          · intro j it hj
            cases j with
            | zero =>
              simp only [List.getElem?_cons_zero, Option.some.injEq] at hj
              subst hj
              exact ⟨here, by simp, by simpa using hs⟩
            | succ j =>
              simp only [List.getElem?_cons_succ] at hj
              obtain ⟨part, hp, hsw⟩ := hparts j it hj
              refine ⟨part, by simpa using hp, ?_⟩
              have : i + (j + 1) = i + 1 + j := by omega
              rw [this]
              exact hsw
          · rw [← h, hmore]
            simp [joinParts]
    · rintro ⟨parts, hlen, hparts, hbody⟩
      cases parts with
      | nil => simp at hlen
      | cons here parts =>
        obtain ⟨part, hp, hsw⟩ := hparts 0 item (by simp)
        simp only [List.getElem?_cons_zero, Option.some.injEq] at hp
        subst hp
        simp only [Nat.add_zero] at hsw
        have hrest : writeItemsLoop marshal pfx isArray last (i + 1) rest =
            some (joinParts parts) := by
          refine (ih _).2 ⟨parts, by simpa using hlen, ?_, rfl⟩
          intro j it hj
          obtain ⟨part, hp, hsw⟩ := hparts (j + 1) it (by simpa using hj)
          refine ⟨part, by simpa using hp, ?_⟩
          have : i + 1 + j = i + (j + 1) := by omega
          rw [this]
          exact hsw
        rw [hsw, hrest, hbody]
        simp [joinParts]

/-- The writes of `writeItems`: the opening write, then for each item a newline
and the writes of the `switch` on it, with `i < last` true iff the item is not the
last, then the closing write. -/
theorem writeItems_eq_some (marshal : Iface → String) (pfx : String)
    (items : List DiffItem) (isArray : Bool) (out : List Chunk) :
    writeItems marshal pfx items isArray = some out ↔
      ∃ parts : List (List Chunk), parts.length = items.length ∧
        (∀ (j : Nat) (item : DiffItem), items[j]? = some item →
          ∃ part, parts[j]? = some part ∧
            writeItemsSwitch marshal pfx isArray (decide (j + 1 < items.length)) item =
              some part) ∧
        out = [openFrame isArray] ++ joinParts parts ++ [closeFrame pfx isArray] := by
  rw [writeItems]
  have hflag : ∀ j : Nat, decide (((0 + j : Nat) : Int) < (items.length : Int) - 1) =
      decide (j + 1 < items.length) := by
    intro j
    congr 1
    apply propext
    constructor <;> intro h <;> omega
  have hframe : ∀ body : List Chunk,
      ((if isArray = true then [Chunk.text "["] else [Chunk.text "\x7b"]) ++ body ++
        (if isArray = true then [Chunk.text ("\n" ++ pfx ++ "]")]
         else [Chunk.text ("\n" ++ pfx ++ "\x7d")])) =
      [openFrame isArray] ++ body ++ [closeFrame pfx isArray] := by
    intro body
    cases isArray <;> simp [openFrame, closeFrame]
  constructor
  · intro h
    cases hl : writeItemsLoop marshal pfx isArray ((items.length : Int) - 1) 0 items with
    | none => simp [hl] at h
    | some body =>
      simp only [hl, Option.some.injEq] at h
      obtain ⟨parts, hlen, hparts, hbody⟩ := (writeItemsLoop_eq_some _ _ _ _ _ _ _).1 hl
      refine ⟨parts, hlen, fun j item hj => ?_, ?_⟩
      · obtain ⟨part, hp, hsw⟩ := hparts j item hj
        rw [hflag] at hsw
        exact ⟨part, hp, hsw⟩
      · rw [← h, hframe, hbody]
  · rintro ⟨parts, hlen, hparts, hout⟩
    have hl : writeItemsLoop marshal pfx isArray ((items.length : Int) - 1) 0 items =
        some (joinParts parts) := by
      refine (writeItemsLoop_eq_some _ _ _ _ _ _ _).2 ⟨parts, hlen, fun j item hj => ?_, rfl⟩
      obtain ⟨part, hp, hsw⟩ := hparts j item hj
      rw [hflag]
      exact ⟨part, hp, hsw⟩
    simp only [hl]
    rw [hframe, hout]

theorem writeItemsSwitch_equals (marshal : Iface → String) (pfx : String) (isArray notLast : Bool)
    (item : DiffItem) (h : item.Resolution = ResolutionType.TypeEquals) :
    writeItemsSwitch marshal pfx isArray notLast item =
      some (writeItem marshal pfx item.Key item.ValueA notLast isArray) := by
  rw [writeItemsSwitch]
  simp [h]

theorem writeItemsSwitch_notEquals (marshal : Iface → String) (pfx : String)
    (isArray notLast : Bool) (item : DiffItem)
    (h : item.Resolution = ResolutionType.TypeNotEquals) :
    writeItemsSwitch marshal pfx isArray notLast item =
      some ([Chunk.colorStartYellow] ++
        writeItem marshal (pfx ++ "<> ") item.Key item.ValueA notLast isArray ++
        [Chunk.text "\n"] ++
        writeItem marshal (pfx ++ "** ") item.Key item.ValueB notLast isArray ++
        [Chunk.colorReset]) := by
  rw [writeItemsSwitch]
  simp [h]

theorem writeItemsSwitch_added (marshal : Iface → String) (pfx : String) (isArray notLast : Bool)
    (item : DiffItem) (h : item.Resolution = ResolutionType.TypeAdded) :
    writeItemsSwitch marshal pfx isArray notLast item =
      some ([Chunk.colorStartGreen] ++
        writeItem marshal (pfx ++ "<< ") item.Key item.ValueB notLast isArray ++
        [Chunk.colorReset]) := by
  rw [writeItemsSwitch]
  simp [h]

theorem writeItemsSwitch_removed (marshal : Iface → String) (pfx : String)
    (isArray notLast : Bool) (item : DiffItem)
    (h : item.Resolution = ResolutionType.TypeRemoved) :
    writeItemsSwitch marshal pfx isArray notLast item =
      some ([Chunk.colorStartRed] ++
        writeItem marshal (pfx ++ ">> ") item.Key item.ValueA notLast isArray ++
        [Chunk.colorReset]) := by
  rw [writeItemsSwitch]
  simp [h]

theorem writeItemsSwitch_diff (marshal : Iface → String) (pfx : String) (isArray notLast : Bool)
    (item : DiffItem) (subdiff : List DiffItem)
    (h : item.Resolution = ResolutionType.TypeDiff) (hv : item.ValueB = Iface.items subdiff) :
    writeItemsSwitch marshal pfx isArray notLast item =
      match writeItems marshal (pfx ++ indentation) subdiff false with
      | none => none
      | some nested =>
        some ([Chunk.text (pfx ++ "\"" ++ item.Key ++ "\": ")] ++ nested ++ comma notLast) := by
  rw [writeItemsSwitch]
  simp only [h]
  split
  · rename_i v hv2
    rw [hv] at hv2
    cases hv2
  · rename_i sub hv2
    rw [hv] at hv2
    injection hv2 with hv2
    subst hv2
    rfl

theorem writeItemsSwitch_diff_val (marshal : Iface → String) (pfx : String)
    (isArray notLast : Bool) (item : DiffItem) (v : Value)
    (h : item.Resolution = ResolutionType.TypeDiff) (hv : item.ValueB = Iface.val v) :
    writeItemsSwitch marshal pfx isArray notLast item = none := by
  rw [writeItemsSwitch]
  simp only [h]
  split
  · rfl
  · rename_i sub hv2
    rw [hv] at hv2
    cases hv2

theorem writeItem_eq (marshal : Iface → String) (pfx key : String) (value : Iface)
    (isNotLast isArray : Bool) :
    writeItem marshal pfx key value isNotLast isArray =
      [itemHead pfx key isArray, Chunk.text (marshal value)] ++ comma isNotLast := by
  cases isArray <;> cases isNotLast <;> simp [writeItem, itemHead, comma]

/-- What the `switch` of `writeItems` writes, case by case. -/
theorem writeItemsSwitch_cases (marshal : Iface → String) (pfx : String)
    (isArray notLast : Bool) (item : DiffItem) (part : List Chunk)
    (h : writeItemsSwitch marshal pfx isArray notLast item = some part) :
    (item.Resolution = ResolutionType.TypeEquals →
      part = [itemHead pfx item.Key isArray, Chunk.text (marshal item.ValueA)] ++ comma notLast) ∧
    (item.Resolution = ResolutionType.TypeNotEquals →
      part = [Chunk.colorStartYellow] ++
        ([itemHead (pfx ++ "<> ") item.Key isArray, Chunk.text (marshal item.ValueA)] ++
          comma notLast) ++
        [Chunk.text "\n"] ++
        ([itemHead (pfx ++ "** ") item.Key isArray, Chunk.text (marshal item.ValueB)] ++
          comma notLast) ++
        [Chunk.colorReset]) ∧
    (item.Resolution = ResolutionType.TypeAdded →
      part = [Chunk.colorStartGreen] ++
        ([itemHead (pfx ++ "<< ") item.Key isArray, Chunk.text (marshal item.ValueB)] ++
          comma notLast) ++
        [Chunk.colorReset]) ∧
    (item.Resolution = ResolutionType.TypeRemoved →
      part = [Chunk.colorStartRed] ++
        ([itemHead (pfx ++ ">> ") item.Key isArray, Chunk.text (marshal item.ValueA)] ++
          comma notLast) ++
        [Chunk.colorReset]) ∧
    (item.Resolution = ResolutionType.TypeDiff →
      ∃ subdiff nested, item.ValueB = Iface.items subdiff ∧
        writeItems marshal (pfx ++ indentation) subdiff false = some nested ∧
        part = [Chunk.text (pfx ++ "\"" ++ item.Key ++ "\": ")] ++ nested ++ comma notLast) := by
  refine ⟨fun hr => ?_, fun hr => ?_, fun hr => ?_, fun hr => ?_, fun hr => ?_⟩
  · rw [writeItemsSwitch_equals _ _ _ _ _ hr, writeItem_eq] at h
    injection h with h
    exact h.symm
  · rw [writeItemsSwitch_notEquals _ _ _ _ _ hr, writeItem_eq, writeItem_eq] at h
    injection h with h
    exact h.symm
  · rw [writeItemsSwitch_added _ _ _ _ _ hr, writeItem_eq] at h
    injection h with h
    exact h.symm
  · rw [writeItemsSwitch_removed _ _ _ _ _ hr, writeItem_eq] at h
    injection h with h
    exact h.symm
  · cases hv : item.ValueB with
    | val v =>
      rw [writeItemsSwitch_diff_val _ _ _ _ _ v hr hv] at h
      cases h
    | items subdiff =>
      rw [writeItemsSwitch_diff _ _ _ _ _ subdiff hr hv] at h
      cases hn : writeItems marshal (pfx ++ indentation) subdiff false with
      | none => simp [hn] at h
      | some nested =>
        simp only [hn, Option.some.injEq] at h
        exact ⟨subdiff, nested, rfl, hn, h.symm⟩

theorem bandAfter_append (st : Bool) (w1 w2 : List Chunk) :
    bandAfter st (w1 ++ w2) = bandAfter (bandAfter st w1) w2 := by
  simp [bandAfter, List.foldl_append]

theorem bandAfter_text (st : Bool) (w : List Chunk) (h : ∀ c ∈ w, c.isText = true) :
    bandAfter st w = st := by
  induction w generalizing st with
  | nil => rfl
  | cons c tl ih =>
    have hc := h c (List.mem_cons_self _ _)
    cases c <;> simp [Chunk.isText] at hc
    simp only [bandAfter, List.foldl_cons]
    exact ih _ (fun c hc => h c (List.mem_cons_of_mem _ hc))

theorem isText_itemHead (pfx key : String) (isArray : Bool) :
    (itemHead pfx key isArray).isText = true := by
  cases isArray <;> rfl

theorem isText_comma (b : Bool) : ∀ c ∈ comma b, c.isText = true := by
  cases b <;> simp [comma, Chunk.isText]

theorem isText_line (marshal : Iface → String) (pfx key : String) (v : Iface)
    (isArray notLast : Bool) :
    ∀ c ∈ [itemHead pfx key isArray, Chunk.text (marshal v)] ++ comma notLast,
      c.isText = true := by
  intro c hc
  rcases List.mem_append.1 hc with h | h
  · simp only [List.mem_cons, List.mem_singleton, List.not_mem_nil, or_false] at h
    rcases h with h | h
    · rw [h]; exact isText_itemHead _ _ _
    · rw [h]; rfl
  · exact isText_comma _ c h

theorem sizeOf_subdiff_lt {items : List DiffItem} {item : DiffItem} {subdiff : List DiffItem}
    (hmem : item ∈ items) (hv : item.ValueB = Iface.items subdiff) :
    sizeOf subdiff < sizeOf items := by
  have h1 := List.sizeOf_lt_of_mem hmem
  cases item with
  | mk k a r b =>
    simp only [DiffItem.ValueB] at hv
    subst hv
    simp at h1
    omega

theorem bandAfter_joinParts (parts : List (List Chunk))
    (h : ∀ p ∈ parts, bandAfter false p = false) : bandAfter false (joinParts parts) = false := by
  induction parts with
  | nil => rfl
  | cons p tl ih =>
    have hp := h p (List.mem_cons_self _ _)
    have : joinParts (p :: tl) = [Chunk.text "\n"] ++ p ++ joinParts tl := by
      simp [joinParts]
    rw [this, bandAfter_append, bandAfter_append]
    have h0 : bandAfter false [Chunk.text "\n"] = false := rfl
    rw [h0, hp]
    exact ih (fun q hq => h q (List.mem_cons_of_mem _ hq))

theorem bandAfter_frame (isArray : Bool) (pfx : String) (body : List Chunk)
    (h : bandAfter false body = false) :
    bandAfter false ([openFrame isArray] ++ body ++ [closeFrame pfx isArray]) = false := by
  rw [bandAfter_append, bandAfter_append]
  have h0 : bandAfter false [openFrame isArray] = false := by cases isArray <;> rfl
  rw [h0, h]
  cases isArray <;> rfl

theorem bandAfter_writeItems_aux (marshal : Iface → String) (n : Nat) :
    ∀ (items : List DiffItem), sizeOf items ≤ n →
      ∀ (pfx : String) (isArray : Bool) (out : List Chunk),
        writeItems marshal pfx items isArray = some out →
        ∃ parts : List (List Chunk), parts.length = items.length ∧
          (∀ (j : Nat) (item : DiffItem), items[j]? = some item →
            ∃ part, parts[j]? = some part ∧
              writeItemsSwitch marshal pfx isArray (decide (j + 1 < items.length)) item =
                some part) ∧
          out = [openFrame isArray] ++ joinParts parts ++ [closeFrame pfx isArray] ∧
          (∀ p ∈ parts, bandAfter false p = false) ∧ bandAfter false out = false := by
  induction n with
  | zero =>
    intro items h
    cases items <;> simp at h
  | succ n ih =>
    intro items hsz pfx isArray out hout
    obtain ⟨parts, hlen, hparts, hout2⟩ := (writeItems_eq_some _ _ _ _ _).1 hout
    have hclosed : ∀ p ∈ parts, bandAfter false p = false := by
      intro p hp
      obtain ⟨j, hj, hpj⟩ := List.getElem_of_mem hp
      have hj2 : j < items.length := by omega
      obtain ⟨part, hpart, hsw⟩ := hparts j items[j] (List.getElem?_eq_getElem hj2)
      rw [List.getElem?_eq_getElem hj, Option.some.injEq] at hpart
      rw [hpj] at hpart
      subst hpart
      have hc := writeItemsSwitch_cases _ _ _ _ _ _ hsw
      have hmem : items[j] ∈ items := List.getElem_mem _
      cases hr : (items[j]).Resolution with
      | TypeEquals =>
        rw [hc.1 hr]
        exact bandAfter_text _ _ (isText_line _ _ _ _ _ _)
      | TypeNotEquals =>
        rw [hc.2.1 hr]
        simp only [bandAfter_append, bandAfter_text _ _ (isText_line _ _ _ _ _ _)]
        rfl
      | TypeAdded =>
        rw [hc.2.2.1 hr]
        simp only [bandAfter_append, bandAfter_text _ _ (isText_line _ _ _ _ _ _)]
        rfl
      | TypeRemoved =>
        rw [hc.2.2.2.1 hr]
        simp only [bandAfter_append, bandAfter_text _ _ (isText_line _ _ _ _ _ _)]
        rfl
      | TypeDiff =>
        obtain ⟨subdiff, nested, hv, hn, hp⟩ := hc.2.2.2.2 hr
        have hlt := sizeOf_subdiff_lt hmem hv
        obtain ⟨_, _, _, _, _, hnb⟩ := ih subdiff (by omega) _ _ _ hn
        rw [hp, bandAfter_append, bandAfter_append]
        have h0 : bandAfter false [Chunk.text (pfx ++ "\"" ++ (items[j]).Key ++ "\": ")] = false :=
          rfl
        rw [h0, hnb]
        exact bandAfter_text _ _ (isText_comma _)
    refine ⟨parts, hlen, hparts, hout2, hclosed, ?_⟩
    rw [hout2]
    exact bandAfter_frame _ _ _ (bandAfter_joinParts _ hclosed)

theorem comma_decide (p : Prop) [Decidable p] :
    comma (decide p) = if p then [Chunk.text ","] else [] := by
  by_cases h : p <;> simp [comma, h]

theorem getLast?_writeItems {marshal : Iface → String} {pfx : String} {items : List DiffItem}
    {isArray : Bool} {out : List Chunk} (h : writeItems marshal pfx items isArray = some out) :
    ∃ body, out = body ++ [closeFrame pfx isArray] := by
  obtain ⟨parts, _, _, hout⟩ := (writeItems_eq_some _ _ _ _ _).1 h
  exact ⟨[openFrame isArray] ++ joinParts parts, hout⟩

/-- C13: in the writes of `writeItems` on any item list, the write after item
`i`'s serialized value (after both lines of a NotEqual item, and after the closing
brace of the nested writes of a Diff item) is a comma iff `i` is not the last
index; an Equal item of an object-shaped list is written as the prefix, the quoted
key, a colon and a space, the JSON of `ValueA`, and the comma unless it is last. -/
theorem C13_trailing_comma (marshal : Iface → String) (pfx : String) (items : List DiffItem)
    (isArray : Bool) (out : List Chunk)
    (h : writeItems marshal pfx items isArray = some out) :
    ∃ parts : List (List Chunk), parts.length = items.length ∧
      out = [openFrame isArray] ++ joinParts parts ++ [closeFrame pfx isArray] ∧
      ∀ (j : Nat) (item : DiffItem), items[j]? = some item →
        (j + 1 < items.length ↔ j ≠ items.length - 1) ∧
        ∃ part, parts[j]? = some part ∧
          (item.Resolution = ResolutionType.TypeEquals →
            part = [itemHead pfx item.Key isArray, Chunk.text (marshal item.ValueA)] ++
              (if j + 1 < items.length then [Chunk.text ","] else []) ∧
            itemHead pfx item.Key false = Chunk.text (pfx ++ "\"" ++ item.Key ++ "\": ")) ∧
          (item.Resolution = ResolutionType.TypeNotEquals →
            part = [Chunk.colorStartYellow] ++
              ([itemHead (pfx ++ "<> ") item.Key isArray, Chunk.text (marshal item.ValueA)] ++
                (if j + 1 < items.length then [Chunk.text ","] else [])) ++
              [Chunk.text "\n"] ++
              ([itemHead (pfx ++ "** ") item.Key isArray, Chunk.text (marshal item.ValueB)] ++
                (if j + 1 < items.length then [Chunk.text ","] else [])) ++
              [Chunk.colorReset]) ∧
          (item.Resolution = ResolutionType.TypeAdded →
            part = [Chunk.colorStartGreen] ++
              ([itemHead (pfx ++ "<< ") item.Key isArray, Chunk.text (marshal item.ValueB)] ++
                (if j + 1 < items.length then [Chunk.text ","] else [])) ++
              [Chunk.colorReset]) ∧
          (item.Resolution = ResolutionType.TypeRemoved →
            part = [Chunk.colorStartRed] ++
              ([itemHead (pfx ++ ">> ") item.Key isArray, Chunk.text (marshal item.ValueA)] ++
                (if j + 1 < items.length then [Chunk.text ","] else [])) ++
              [Chunk.colorReset]) ∧
          (item.Resolution = ResolutionType.TypeDiff →
            ∃ subdiff nested body, item.ValueB = Iface.items subdiff ∧
              writeItems marshal (pfx ++ indentation) subdiff false = some nested ∧
              nested = body ++ [Chunk.text ("\n" ++ (pfx ++ indentation) ++ "\x7d")] ∧
              part = [Chunk.text (pfx ++ "\"" ++ item.Key ++ "\": ")] ++ nested ++
                (if j + 1 < items.length then [Chunk.text ","] else [])) := by
  obtain ⟨parts, hlen, hparts, hout⟩ := (writeItems_eq_some _ _ _ _ _).1 h
  refine ⟨parts, hlen, hout, fun j item hj => ?_⟩
  have hjlt : j < items.length := (List.getElem?_eq_some_iff.1 hj).1
  refine ⟨by omega, ?_⟩
  obtain ⟨part, hp, hsw⟩ := hparts j item hj
  have hc := writeItemsSwitch_cases _ _ _ _ _ _ hsw
  simp only [comma_decide] at hc
  refine ⟨part, hp, fun hr => ⟨hc.1 hr, by simp [itemHead]⟩, hc.2.1, hc.2.2.1, hc.2.2.2.1,
    fun hr => ?_⟩
  obtain ⟨subdiff, nested, hv, hn, hpart⟩ := hc.2.2.2.2 hr
  obtain ⟨body, hbody⟩ := getLast?_writeItems hn
  exact ⟨subdiff, nested, body, hv, hn, by rw [hbody]; simp [closeFrame], hpart⟩

/-- The trailing commas of an object-shaped list of two Equal items. -/
theorem C13_trailing_comma_witness :
    writeItems (fun _ => "1") ""
        [DiffItem.mk "a" (Iface.val (Value.number 1)) ResolutionType.TypeEquals Iface.nil,
         DiffItem.mk "b" (Iface.val (Value.number 1)) ResolutionType.TypeEquals Iface.nil] false =
      some [Chunk.text "\x7b", Chunk.text "\n", Chunk.text "\"a\": ", Chunk.text "1",
        Chunk.text ",", Chunk.text "\n", Chunk.text "\"b\": ", Chunk.text "1",
        Chunk.text "\n\x7d"] ∧
    ∃ parts : List (List Chunk), parts.length = 2 :=
  ⟨by simp [writeItems, writeItemsLoop, writeItemsSwitch, writeItem, DiffItem.Resolution,
      DiffItem.Key, DiffItem.ValueA],
   (C13_trailing_comma (fun _ => "1") ""
      [DiffItem.mk "a" (Iface.val (Value.number 1)) ResolutionType.TypeEquals Iface.nil,
       DiffItem.mk "b" (Iface.val (Value.number 1)) ResolutionType.TypeEquals Iface.nil] false
      [Chunk.text "\x7b", Chunk.text "\n", Chunk.text "\"a\": ", Chunk.text "1",
        Chunk.text ",", Chunk.text "\n", Chunk.text "\"b\": ", Chunk.text "1",
        Chunk.text "\n\x7d"]
      (by simp [writeItems, writeItemsLoop, writeItemsSwitch, writeItem, DiffItem.Resolution,
        DiffItem.Key, DiffItem.ValueA])).imp (fun _ hp => hp.1)⟩

theorem bandAfter_before_item (isArray : Bool) (parts : List (List Chunk)) (j : Nat)
    (h : ∀ p ∈ parts, bandAfter false p = false) :
    bandAfter false ([openFrame isArray] ++ joinParts (parts.take j) ++ [Chunk.text "\n"]) =
      false := by
  rw [bandAfter_append, bandAfter_append]
  have h0 : bandAfter false [openFrame isArray] = false := by cases isArray <;> rfl
  rw [h0, bandAfter_joinParts _ (fun p hp => h p (List.mem_of_mem_take hp))]
  rfl

/-- C14: for a NotEqual item `writeItems` writes, after a newline, one colour band,
from the yellow start to the reset, holding two lines: the item under the marker
`<> ` with the JSON of `ValueA`, a newline, and the item under the marker `** `
with the JSON of `ValueB`; no band is open where the writes of an item begin or
end, an Equal item is written as texts only, and the head, the two frames and the
comma of a Diff item are written with no band open. -/
theorem C14_notEqual_rendering (marshal : Iface → String) (pfx : String)
    (items : List DiffItem) (isArray : Bool) (out : List Chunk)
    (h : writeItems marshal pfx items isArray = some out) :
    ∃ parts : List (List Chunk), parts.length = items.length ∧
      out = [openFrame isArray] ++ joinParts parts ++ [closeFrame pfx isArray] ∧
      ∀ (j : Nat) (item : DiffItem), items[j]? = some item →
        ∃ part, parts[j]? = some part ∧
          bandAfter false
            ([openFrame isArray] ++ joinParts (parts.take j) ++ [Chunk.text "\n"]) = false ∧
          bandAfter false part = false ∧
          (item.Resolution = ResolutionType.TypeNotEquals →
            ∃ lineA lineB,
              lineA = [itemHead (pfx ++ "<> ") item.Key isArray,
                Chunk.text (marshal item.ValueA)] ++ comma (decide (j + 1 < items.length)) ∧
              lineB = [itemHead (pfx ++ "** ") item.Key isArray,
                Chunk.text (marshal item.ValueB)] ++ comma (decide (j + 1 < items.length)) ∧
              (∀ c ∈ lineA ++ [Chunk.text "\n"] ++ lineB, c.isText = true) ∧
              part = [Chunk.colorStartYellow] ++ lineA ++ [Chunk.text "\n"] ++ lineB ++
                [Chunk.colorReset]) ∧
          (item.Resolution = ResolutionType.TypeEquals → ∀ c ∈ part, c.isText = true) ∧
          (item.Resolution = ResolutionType.TypeDiff →
            ∃ subdiff nparts, item.ValueB = Iface.items subdiff ∧
              part = [Chunk.text (pfx ++ "\"" ++ item.Key ++ "\": ")] ++
                ([openFrame false] ++ joinParts nparts ++
                  [closeFrame (pfx ++ indentation) false]) ++
                comma (decide (j + 1 < items.length)) ∧
              bandAfter false ([Chunk.text (pfx ++ "\"" ++ item.Key ++ "\": ")] ++
                ([openFrame false] ++ joinParts nparts)) = false) := by
  obtain ⟨parts, hlen, hparts, hout, hclosed, _⟩ :=
    bandAfter_writeItems_aux marshal (sizeOf items) items (Nat.le_refl _) pfx isArray out h
  refine ⟨parts, hlen, hout, fun j item hj => ?_⟩
  obtain ⟨part, hp, hsw⟩ := hparts j item hj
  have hc := writeItemsSwitch_cases _ _ _ _ _ _ hsw
  have hpm : part ∈ parts := List.getElem?_mem hp
  refine ⟨part, hp, bandAfter_before_item _ _ _ hclosed, hclosed part hpm, fun hr => ?_,
    fun hr => ?_, fun hr => ?_⟩
  · refine ⟨_, _, rfl, rfl, ?_, ?_⟩
    · intro c hc2
      rcases List.mem_append.1 hc2 with h1 | h1
      · rcases List.mem_append.1 h1 with h2 | h2
        · exact isText_line _ _ _ _ _ _ c h2
        · simp only [List.mem_singleton] at h2
          rw [h2]; rfl
      · exact isText_line _ _ _ _ _ _ c h1
    · rw [hc.2.1 hr]
  · rw [hc.1 hr]
    exact isText_line _ _ _ _ _ _
  · obtain ⟨subdiff, nested, hv, hn, hpart⟩ := hc.2.2.2.2 hr
    obtain ⟨nparts, _, _, hnout, hnclosed, _⟩ :=
      bandAfter_writeItems_aux marshal (sizeOf subdiff) subdiff (Nat.le_refl _) _ _ _ hn
    refine ⟨subdiff, nparts, hv, by rw [hpart, hnout], ?_⟩
    rw [bandAfter_append, bandAfter_append]
    have h0 : bandAfter false [Chunk.text (pfx ++ "\"" ++ item.Key ++ "\": ")] = false := rfl
    have h1 : bandAfter false [openFrame false] = false := rfl
    rw [h0, h1]
    exact bandAfter_joinParts _ hnclosed

/-- The band of one NotEqual item in an object-shaped list. -/
theorem C14_notEqual_rendering_witness :
    writeItems (fun _ => "1") ""
        [DiffItem.mk "a" (Iface.val (Value.number 1)) ResolutionType.TypeNotEquals
          (Iface.val (Value.number 2))] false =
      some [Chunk.text "\x7b", Chunk.text "\n", Chunk.colorStartYellow,
        Chunk.text "<> \"a\": ", Chunk.text "1", Chunk.text "\n",
        Chunk.text "** \"a\": ", Chunk.text "1", Chunk.colorReset, Chunk.text "\n\x7d"] ∧
    ∃ parts : List (List Chunk), parts.length = 1 :=
  ⟨by simp [writeItems, writeItemsLoop, writeItemsSwitch, writeItem, DiffItem.Resolution,
      DiffItem.Key, DiffItem.ValueA, DiffItem.ValueB],
   (C14_notEqual_rendering (fun _ => "1") ""
      [DiffItem.mk "a" (Iface.val (Value.number 1)) ResolutionType.TypeNotEquals
        (Iface.val (Value.number 2))] false
      [Chunk.text "\x7b", Chunk.text "\n", Chunk.colorStartYellow,
        Chunk.text "<> \"a\": ", Chunk.text "1", Chunk.text "\n",
        Chunk.text "** \"a\": ", Chunk.text "1", Chunk.colorReset, Chunk.text "\n\x7d"]
      (by simp [writeItems, writeItemsLoop, writeItemsSwitch, writeItem, DiffItem.Resolution,
        DiffItem.Key, DiffItem.ValueA, DiffItem.ValueB])).imp (fun _ hp => hp.1)⟩

/-- C15: for an Added item `writeItems` writes one line in the green band: the item
under the marker `<< ` with the JSON of `ValueB`; for a Removed item one line in
the red band: the item under the marker `>> ` with the JSON of `ValueA`. -/
theorem C15_added_removed_rendering (marshal : Iface → String) (pfx : String)
    (items : List DiffItem) (isArray : Bool) (out : List Chunk)
    (h : writeItems marshal pfx items isArray = some out) :
    ∃ parts : List (List Chunk), parts.length = items.length ∧
      out = [openFrame isArray] ++ joinParts parts ++ [closeFrame pfx isArray] ∧
      ∀ (j : Nat) (item : DiffItem), items[j]? = some item →
        ∃ part, parts[j]? = some part ∧
          (item.Resolution = ResolutionType.TypeAdded →
            ∃ line,
              line = [itemHead (pfx ++ "<< ") item.Key isArray,
                Chunk.text (marshal item.ValueB)] ++ comma (decide (j + 1 < items.length)) ∧
              (∀ c ∈ line, c.isText = true) ∧
              part = [Chunk.colorStartGreen] ++ line ++ [Chunk.colorReset]) ∧
          (item.Resolution = ResolutionType.TypeRemoved →
            ∃ line,
              line = [itemHead (pfx ++ ">> ") item.Key isArray,
                Chunk.text (marshal item.ValueA)] ++ comma (decide (j + 1 < items.length)) ∧
              (∀ c ∈ line, c.isText = true) ∧
              part = [Chunk.colorStartRed] ++ line ++ [Chunk.colorReset]) := by
  obtain ⟨parts, hlen, hparts, hout⟩ := (writeItems_eq_some _ _ _ _ _).1 h
  refine ⟨parts, hlen, hout, fun j item hj => ?_⟩
  obtain ⟨part, hp, hsw⟩ := hparts j item hj
  have hc := writeItemsSwitch_cases _ _ _ _ _ _ hsw
  exact ⟨part, hp, fun hr => ⟨_, rfl, isText_line _ _ _ _ _ _, hc.2.2.1 hr⟩,
    fun hr => ⟨_, rfl, isText_line _ _ _ _ _ _, hc.2.2.2.1 hr⟩⟩

/-- The bands of a Removed and an Added item in an array-shaped list. -/
theorem C15_added_removed_rendering_witness :
    writeItems (fun _ => "1") ""
        [DiffItem.mk "" (Iface.val (Value.number 1)) ResolutionType.TypeRemoved Iface.nil,
         DiffItem.mk "" Iface.nil ResolutionType.TypeAdded (Iface.val (Value.number 1))] true =
      some [Chunk.text "[", Chunk.text "\n", Chunk.colorStartRed, Chunk.text ">>  ",
        Chunk.text "1", Chunk.text ",", Chunk.colorReset, Chunk.text "\n",
        Chunk.colorStartGreen, Chunk.text "<<  ", Chunk.text "1", Chunk.colorReset,
        Chunk.text "\n]"] ∧
    ∃ parts : List (List Chunk), parts.length = 2 :=
  ⟨by simp [writeItems, writeItemsLoop, writeItemsSwitch, writeItem, DiffItem.Resolution,
      DiffItem.Key, DiffItem.ValueA, DiffItem.ValueB],
   (C15_added_removed_rendering (fun _ => "1") ""
      [DiffItem.mk "" (Iface.val (Value.number 1)) ResolutionType.TypeRemoved Iface.nil,
       DiffItem.mk "" Iface.nil ResolutionType.TypeAdded (Iface.val (Value.number 1))] true
      [Chunk.text "[", Chunk.text "\n", Chunk.colorStartRed, Chunk.text ">>  ",
        Chunk.text "1", Chunk.text ",", Chunk.colorReset, Chunk.text "\n",
        Chunk.colorStartGreen, Chunk.text "<<  ", Chunk.text "1", Chunk.colorReset,
        Chunk.text "\n]"]
      (by simp [writeItems, writeItemsLoop, writeItemsSwitch, writeItem, DiffItem.Resolution,
        DiffItem.Key, DiffItem.ValueA, DiffItem.ValueB])).imp (fun _ hp => hp.1)⟩

/-! ## Comparator output at every depth -/

theorem populated_sub {a b : Option Value} {parent : DiffItem} {sub : List DiffItem}
    (hp : Populated a b parent) (hv : parent.ValueB = Iface.items sub) :
    ∀ it, it ∈ sub → ∃ a2 b2, Populated a2 b2 it := by
  cases hp with
  | equal k vA vB => simp [DiffItem.ValueB, Iface.nil] at hv
  | notEqual k vA vB => simp [DiffItem.ValueB] at hv
  | added k vB => simp [DiffItem.ValueB] at hv
  | removed k vA => simp [DiffItem.ValueB, Iface.nil] at hv
  | diffMaps k mapA mapB hne hsub =>
    simp only [DiffItem.ValueB, Iface.items.injEq] at hv
    subst hv
    exact fun it hit => ⟨_, _, hsub it hit⟩
  | diffArrays k arrayA arrayB hne hsub =>
    simp only [DiffItem.ValueB, Iface.items.injEq] at hv
    subst hv
    intro it hit
    obtain ⟨i, hi, hget⟩ := List.getElem_of_mem hit
    exact ⟨_, _, hsub i it (by rw [List.getElem?_eq_getElem hi, hget])⟩

/-- Items nested at any depth in a list of populated items are populated. -/
theorem nested_populated {it : DiffItem} {l : List DiffItem} (hn : Nested it l)
    (hl : ∀ x, x ∈ l → ∃ a b, Populated a b x) : ∃ a b, Populated a b it := by
  induction hn with
  | top l h => exact hl it h
  | inside parent sub l hp hr hv _ ih =>
    obtain ⟨a, b, hpar⟩ := hl parent hp
    exact ih (populated_sub hpar hv)

theorem populated_compareStringMaps (A B : GoMap) :
    ∀ x, x ∈ (compareStringMaps A B).Items → ∃ a b, Populated a b x :=
  fun x hx => ⟨_, _, (populated_aux (sizeOf A)).1 A B (Nat.le_refl _) x hx⟩

theorem populated_compareArrays (X Y : List Value) :
    ∀ x, x ∈ (compareArrays X Y).Items → ∃ a b, Populated a b x := by
  intro x hx
  obtain ⟨i, hi, hget⟩ := List.getElem_of_mem hx
  exact ⟨_, _, (populated_aux (sizeOf X)).2 X Y (Nat.le_refl _) i x
    (by rw [List.getElem?_eq_getElem hi, hget])⟩

theorem populated_diff_items {a b : Option Value} {it : DiffItem} (hp : Populated a b it)
    (hr : it.Resolution = ResolutionType.TypeDiff) : ∃ sub, it.ValueB = Iface.items sub := by
  obtain ⟨vA, vB, _, _, _, hv⟩ := hp.fields.2.2.2.2 hr
  exact ⟨_, hv⟩

/-! ## The renderer on comparator output -/

theorem writeItemsLoop_isSome (marshal : Iface → String) (pfx : String) (isArray : Bool)
    (last : Int) :
    ∀ (items : List DiffItem) (i : Nat),
      (∀ item, item ∈ items → ∀ notLast,
        ∃ part, writeItemsSwitch marshal pfx isArray notLast item = some part) →
      ∃ body, writeItemsLoop marshal pfx isArray last i items = some body
  | [], i, _ => ⟨[], writeItemsLoop_nil _ _ _ _ _⟩
  | item :: rest, i, h => by
    obtain ⟨part, hpart⟩ := h item (List.mem_cons_self _ _) (decide ((i : Int) < last))
    obtain ⟨more, hmore⟩ := writeItemsLoop_isSome marshal pfx isArray last rest (i + 1)
      (fun x hx nl => h x (List.mem_cons_of_mem _ hx) nl)
    exact ⟨[Chunk.text "\n"] ++ part ++ more, by rw [writeItemsLoop_cons, hpart, hmore]⟩

theorem writeItems_isSome_aux (marshal : Iface → String) (n : Nat) :
    ∀ (items : List DiffItem), sizeOf items ≤ n →
      (∀ it, Nested it items → it.Resolution = ResolutionType.TypeDiff →
        ∃ sub, it.ValueB = Iface.items sub) →
      ∀ (pfx : String) (isArray : Bool), ∃ out, writeItems marshal pfx items isArray = some out := by
  induction n with
  | zero =>
    intro items h
    cases items <;> simp at h
  | succ n ih =>
    intro items hsz htyped pfx isArray
    have hsw : ∀ item, item ∈ items → ∀ notLast,
        ∃ part, writeItemsSwitch marshal pfx isArray notLast item = some part := by
      intro item hmem notLast
      cases hr : item.Resolution with
      | TypeEquals => exact ⟨_, writeItemsSwitch_equals _ _ _ _ _ hr⟩
      | TypeNotEquals => exact ⟨_, writeItemsSwitch_notEquals _ _ _ _ _ hr⟩
      | TypeAdded => exact ⟨_, writeItemsSwitch_added _ _ _ _ _ hr⟩
      | TypeRemoved => exact ⟨_, writeItemsSwitch_removed _ _ _ _ _ hr⟩
      | TypeDiff =>
        obtain ⟨sub, hv⟩ := htyped item (.top item items hmem) hr
        have hlt := sizeOf_subdiff_lt hmem hv
        obtain ⟨nested, hn⟩ := ih sub (by omega)
          (fun it hit hrd => htyped it (.inside it item sub items hmem hr hv hit) hrd)
          (pfx ++ indentation) false
        exact ⟨_, by rw [writeItemsSwitch_diff _ _ _ _ _ sub hr hv, hn]⟩
    obtain ⟨body, hbody⟩ :=
      writeItemsLoop_isSome marshal pfx isArray ((items.length : Int) - 1) items 0 hsw
    exact ⟨_, by rw [writeItems, hbody]⟩

theorem Format_isSome (c : Colors) (marshal : Iface → String) (d : Diff)
    (h : ∀ x, x ∈ d.Items → ∃ a b, Populated a b x) : ∃ s, Format c marshal d = some s := by
  obtain ⟨out, hout⟩ := writeItems_isSome_aux marshal (sizeOf d.Items) d.Items (Nat.le_refl _)
    (fun it hn hr => by
      obtain ⟨a, b, hp⟩ := nested_populated hn h
      exact populated_diff_items hp hr) "" d.isArray
  exact ⟨_, by rw [Format, hout]⟩

/-- C19: in every result of `compareStringMaps` and of `compareArrays`, at every
nesting depth, an item with Resolution `TypeDiff` has a `[]DiffItem` in `ValueB`,
so the type assertion in `writeItems` does not fail and `Format` returns, on these
results and on every result of `Compare`. -/
theorem C19_format_safe_on_comparator_output (c : Colors) (marshal : Iface → String)
    (A B : GoMap) (X Y : List Value) :
    (∀ it, Nested it (compareStringMaps A B).Items →
      it.Resolution = ResolutionType.TypeDiff → ∃ sub, it.ValueB = Iface.items sub) ∧
    (∀ it, Nested it (compareArrays X Y).Items →
      it.Resolution = ResolutionType.TypeDiff → ∃ sub, it.ValueB = Iface.items sub) ∧
    (∀ (pfx : String) (isArray : Bool),
      ∃ out, writeItems marshal pfx (compareStringMaps A B).Items isArray = some out) ∧
    (∀ (pfx : String) (isArray : Bool),
      ∃ out, writeItems marshal pfx (compareArrays X Y).Items isArray = some out) ∧
    (∃ s, Format c marshal (compareStringMaps A B) = some s) ∧
    (∃ s, Format c marshal (compareArrays X Y) = some s) ∧
    (∀ (α J : Type) (json : Codec α J) (a b : α),
      ∃ s, Format c marshal (Compare json a b) = some s) := by
  have hm : ∀ it, Nested it (compareStringMaps A B).Items →
      it.Resolution = ResolutionType.TypeDiff → ∃ sub, it.ValueB = Iface.items sub :=
    fun it hn hr => by
      obtain ⟨a, b, hp⟩ := nested_populated hn (populated_compareStringMaps A B)
      exact populated_diff_items hp hr
  have ha : ∀ it, Nested it (compareArrays X Y).Items →
      it.Resolution = ResolutionType.TypeDiff → ∃ sub, it.ValueB = Iface.items sub :=
    fun it hn hr => by
      obtain ⟨a, b, hp⟩ := nested_populated hn (populated_compareArrays X Y)
      exact populated_diff_items hp hr
  refine ⟨hm, ha, fun pfx isArray => writeItems_isSome_aux marshal _ _ (Nat.le_refl _) hm _ _,
    fun pfx isArray => writeItems_isSome_aux marshal _ _ (Nat.le_refl _) ha _ _,
    Format_isSome c marshal _ (populated_compareStringMaps A B),
    Format_isSome c marshal _ (populated_compareArrays X Y), fun α J json a b => ?_⟩
  apply Format_isSome
  intro x hx
  unfold Compare at hx
  cases hA : json.Marshal a with
  | error e => simp [hA, Diff.Items] at hx
  | ok jsonA =>
    cases hB : json.Marshal b with
    | error e => simp [hA, hB, Diff.Items] at hx
    | ok jsonB =>
      cases hmA : json.UnmarshalMap jsonA with
      | error e =>
        cases haA : json.UnmarshalArray jsonA with
        | error e => simp [hA, hB, hmA, haA, Diff.Items] at hx
        | ok arrA =>
          cases haB : json.UnmarshalArray jsonB with
          | error e => simp [hA, hB, hmA, haA, haB, Diff.Items] at hx
          | ok arrB =>
            simp only [hA, hB, hmA, haA, haB] at hx
            exact populated_compareArrays arrA arrB x hx
      | ok mapA =>
        cases hmB : json.UnmarshalMap jsonB with
        | error e => simp [hA, hB, hmA, hmB, Diff.Items] at hx
        | ok mapB =>
          simp only [hA, hB, hmA, hmB] at hx
          exact populated_compareStringMaps mapA mapB x hx

/-! ## What a Diff item means -/

theorem exists_nonEqual_of_not_deepEqual_object {mapA mapB : GoMap}
    (h : deepEqual (.object mapA) (.object mapB) = false) :
    ∃ x, x ∈ (compareStringMaps mapA mapB).Items ∧ x.Resolution ≠ ResolutionType.TypeEquals := by
  apply (compareStringMaps_HasDiff_iff_exists mapA mapB).1
  cases hx : (compareStringMaps mapA mapB).HasDiff
  · rw [(compareStringMaps_HasDiff_iff mapA mapB).1 hx] at h
    cases h
  · rfl

theorem exists_nonEqual_of_not_deepEqual_array {arrayA arrayB : List Value}
    (h : deepEqual (.array arrayA) (.array arrayB) = false) :
    ∃ x, x ∈ (compareArrays arrayA arrayB).Items ∧ x.Resolution ≠ ResolutionType.TypeEquals := by
  apply (compareArrays_HasDiff_iff_exists arrayA arrayB).1
  cases hx : (compareArrays arrayA arrayB).HasDiff
  · rw [(compareArrays_HasDiff_iff arrayA arrayB).1 hx] at h
    cases h
  · rfl

theorem not_structEq_of_deepEqual_false {a b : Value} (h : deepEqual a b = false) :
    ¬ StructEq a b := fun hs => by
  rw [(deepEqual_iff_structEq a b).2 hs] at h
  cases h

theorem populated_diff_meaning {a b : Option Value} {it : DiffItem} (hp : Populated a b it)
    (hr : it.Resolution = ResolutionType.TypeDiff) :
    ∃ vA vB, a = some vA ∧ b = some vB ∧ Populated (some vA) (some vB) it ∧
      sameContainer vA vB = true ∧
      ¬ StructEq vA vB ∧ it.ValueB = Iface.items (compare vA vB).2.Items ∧
      (compare vA vB).2.Items ≠ [] ∧
      ∃ x, x ∈ (compare vA vB).2.Items ∧ x.Resolution ≠ ResolutionType.TypeEquals := by
  cases hp with
  | equal k vA vB => simp [DiffItem.Resolution] at hr
  | notEqual k vA vB => simp [DiffItem.Resolution] at hr
  | added k vB => simp [DiffItem.Resolution] at hr
  | removed k vA => simp [DiffItem.Resolution] at hr
  | diffMaps k mapA mapB hne hsub =>
    obtain ⟨x, hx, hxr⟩ := exists_nonEqual_of_not_deepEqual_object hne
    refine ⟨_, _, rfl, rfl, .diffMaps k mapA mapB hne hsub, rfl,
      not_structEq_of_deepEqual_false hne, ?_, ?_, ?_⟩
    · rw [compare_object hne]; rfl
    · rw [compare_object hne]
      exact List.ne_nil_of_mem hx
    · rw [compare_object hne]
      exact ⟨x, hx, hxr⟩
  | diffArrays k arrayA arrayB hne hsub =>
    obtain ⟨x, hx, hxr⟩ := exists_nonEqual_of_not_deepEqual_array hne
    refine ⟨_, _, rfl, rfl, .diffArrays k arrayA arrayB hne hsub, rfl,
      not_structEq_of_deepEqual_false hne, ?_, ?_, ?_⟩
    · rw [compare_array hne]; rfl
    · rw [compare_array hne]
      exact List.ne_nil_of_mem hx
    · rw [compare_array hne]
      exact ⟨x, hx, hxr⟩

/-- C16: for every item with Resolution `TypeDiff` in a result of
`compareStringMaps` or `compareArrays`, at the top (where the two sub-values are
those at the item's key or position) and at any depth, the two compared sub-values
are both mappings or both sequences and are not structurally equal, and the nested
item list, that of their comparison, is not empty and holds an item whose
Resolution is not `TypeEquals`. -/
theorem C16_meaning_of_diff_items (A B : GoMap) (X Y : List Value) :
    (∀ it, it ∈ (compareStringMaps A B).Items →
      it.Resolution = ResolutionType.TypeDiff →
      ∃ vA vB, mapGet A it.Key = some vA ∧ mapGet B it.Key = some vB ∧
        sameContainer vA vB = true ∧
        ¬ StructEq vA vB ∧ it.ValueB = Iface.items (compare vA vB).2.Items ∧
        (compare vA vB).2.Items ≠ [] ∧
        ∃ x, x ∈ (compare vA vB).2.Items ∧ x.Resolution ≠ ResolutionType.TypeEquals) ∧
    (∀ (i : Nat) (it : DiffItem), (compareArrays X Y).Items[i]? = some it →
      it.Resolution = ResolutionType.TypeDiff →
      ∃ vA vB, X[i]? = some vA ∧ Y[i]? = some vB ∧
        sameContainer vA vB = true ∧
        ¬ StructEq vA vB ∧ it.ValueB = Iface.items (compare vA vB).2.Items ∧
        (compare vA vB).2.Items ≠ [] ∧
        ∃ x, x ∈ (compare vA vB).2.Items ∧ x.Resolution ≠ ResolutionType.TypeEquals) ∧
    (∀ it, (Nested it (compareStringMaps A B).Items ∨ Nested it (compareArrays X Y).Items) →
      it.Resolution = ResolutionType.TypeDiff →
      ∃ vA vB, Populated (some vA) (some vB) it ∧ sameContainer vA vB = true ∧
        ¬ StructEq vA vB ∧ it.ValueB = Iface.items (compare vA vB).2.Items ∧
        (compare vA vB).2.Items ≠ [] ∧
        ∃ x, x ∈ (compare vA vB).2.Items ∧ x.Resolution ≠ ResolutionType.TypeEquals) := by
  refine ⟨fun it hit hr => ?_, fun i it hit hr => ?_, fun it hn hr => ?_⟩
  · have hp := (populated_aux (sizeOf A)).1 A B (Nat.le_refl _) it hit
    obtain ⟨vA, vB, ha, hb, _, hrest⟩ := populated_diff_meaning hp hr
    exact ⟨vA, vB, ha, hb, hrest⟩
  · have hp := (populated_aux (sizeOf X)).2 X Y (Nat.le_refl _) i it hit
    obtain ⟨vA, vB, ha, hb, _, hrest⟩ := populated_diff_meaning hp hr
    exact ⟨vA, vB, ha, hb, hrest⟩
  · rcases hn with hn | hn
    · obtain ⟨a, b, hp⟩ := nested_populated hn (populated_compareStringMaps A B)
      obtain ⟨vA, vB, _, _, hrest⟩ := populated_diff_meaning hp hr
      exact ⟨vA, vB, hrest⟩
    · obtain ⟨a, b, hp⟩ := nested_populated hn (populated_compareArrays X Y)
      obtain ⟨vA, vB, _, _, hrest⟩ := populated_diff_meaning hp hr
      exact ⟨vA, vB, hrest⟩

/-! ## Frames and indentation -/

theorem renderCall_pfx {items0 : List DiffItem} {isArray0 : Bool} {d : Nat} {pfx : String}
    {items : List DiffItem} {isArray : Bool}
    (h : RenderCall items0 isArray0 d pfx items isArray) :
    pfx = String.mk (List.replicate (4 * d) ' ') ∧ (0 < d → isArray = false) := by
  induction h with
  | root => exact ⟨rfl, fun h => absurd h (by omega)⟩
  | nested d pfx items isArray item subdiff _ _ _ _ ih =>
    refine ⟨?_, fun _ => rfl⟩
    rw [ih.1]
    have h4 : 4 * (d + 1) = 4 * d + 4 := by omega
    rw [h4, List.replicate_add]
    rfl

theorem itemHead_eq (pfx key : String) (isArray : Bool) :
    itemHead pfx key isArray =
      Chunk.text (pfx ++ (if isArray then " " else "\"" ++ key ++ "\": ")) := by
  cases isArray <;> simp [itemHead, String.append_assoc]

/-- The first text the `switch` of `writeItems` writes for an item begins with
the indentation prefix. -/
theorem first_text_of_switch (marshal : Iface → String) (pfx : String) (isArray notLast : Bool)
    (item : DiffItem) (part : List Chunk)
    (h : writeItemsSwitch marshal pfx isArray notLast item = some part) :
    ∃ tail, part.find? Chunk.isText = some (Chunk.text (pfx ++ tail)) := by
  have hc := writeItemsSwitch_cases _ _ _ _ _ _ h
  cases hr : item.Resolution with
  | TypeEquals =>
    rw [hc.1 hr, itemHead_eq]
    exact ⟨if isArray then " " else "\"" ++ item.Key ++ "\": ", by simp [Chunk.isText]⟩
  | TypeNotEquals =>
    rw [hc.2.1 hr, itemHead_eq]
    exact ⟨"<> " ++ (if isArray then " " else "\"" ++ item.Key ++ "\": "),
      by simp [Chunk.isText, String.append_assoc]⟩
  | TypeAdded =>
    rw [hc.2.2.1 hr, itemHead_eq]
    exact ⟨"<< " ++ (if isArray then " " else "\"" ++ item.Key ++ "\": "),
      by simp [Chunk.isText, String.append_assoc]⟩
  | TypeRemoved =>
    rw [hc.2.2.2.1 hr, itemHead_eq]
    exact ⟨">> " ++ (if isArray then " " else "\"" ++ item.Key ++ "\": "),
      by simp [Chunk.isText, String.append_assoc]⟩
  | TypeDiff =>
    obtain ⟨subdiff, nested, _, _, hp⟩ := hc.2.2.2.2 hr
    rw [hp]
    exact ⟨"\"" ++ item.Key ++ "\": ", by simp [Chunk.isText, String.append_assoc]⟩

/-- C12 fails below the top level: in `Format` of `Compare([[1]], [[2]])` the top
level, a comparison of two sequences, is framed with brackets, and the nested
level, the comparison of the sequences `[1]` and `[2]`, is framed with braces. -/
theorem C12_nested_sequence_framed_as_object (marshal : Iface → String) :
    (Compare genericJSON (Value.array [Value.array [Value.number 1]])
        (Value.array [Value.array [Value.number 2]])).isArray = true ∧
    (Compare genericJSON (Value.array [Value.array [Value.number 1]])
        (Value.array [Value.array [Value.number 2]])).Items =
      [DiffItem.mk "" Iface.nil ResolutionType.TypeDiff
        (Iface.items (compareArrays [Value.number 1] [Value.number 2]).Items)] ∧
    writeItems marshal ""
        (Compare genericJSON (Value.array [Value.array [Value.number 1]])
          (Value.array [Value.array [Value.number 2]])).Items
        (Compare genericJSON (Value.array [Value.array [Value.number 1]])
          (Value.array [Value.array [Value.number 2]])).isArray =
      some [Chunk.text "[", Chunk.text "\n", Chunk.text "\"\": ",
        Chunk.text "\x7b", Chunk.text "\n", Chunk.colorStartYellow,
        Chunk.text "    <> \"\": ", Chunk.text (marshal (Iface.val (Value.number 1))),
        Chunk.text "\n",
        Chunk.text "    ** \"\": ", Chunk.text (marshal (Iface.val (Value.number 2))),
        Chunk.colorReset, Chunk.text "\n    \x7d", Chunk.text "\n]"] := by
  have hitems : (Compare genericJSON (Value.array [Value.array [Value.number 1]])
        (Value.array [Value.array [Value.number 2]])).Items =
      [DiffItem.mk "" Iface.nil ResolutionType.TypeDiff
        (Iface.items [DiffItem.mk "" (Iface.val (Value.number 1))
          ResolutionType.TypeNotEquals (Iface.val (Value.number 2))])] := by
    rw [Compare_array_array]
    simp [Diff.Items, compareArrays, compare, deepEqual, index, Diff.Add,
      DiffItem.Resolution, List.range, List.range.loop]
  have hsub : (compareArrays [Value.number 1] [Value.number 2]).Items =
      [DiffItem.mk "" (Iface.val (Value.number 1))
          ResolutionType.TypeNotEquals (Iface.val (Value.number 2))] := by
    simp [Diff.Items, compareArrays, compare, deepEqual, index, Diff.Add,
      DiffItem.Resolution, List.range, List.range.loop]
  refine ⟨rfl, by rw [hitems, hsub], ?_⟩
  rw [hitems]
  simp [Compare_array_array, writeItems, writeItemsLoop, writeItemsSwitch, writeItem,
    DiffItem.Resolution, DiffItem.Key, DiffItem.ValueA, DiffItem.ValueB, indentation]

/-- C17, as the code has it: a Diff item with key `k` and nested list `s`, in a
list rendered at indentation prefix `p`, is written as `p`, the quoted `k`, a colon
and a space, then the writes of `writeItems` on `s` with prefix `p` and four
spaces, framed with braces whatever the shape of `s` and of the enclosing list,
then a comma unless the item is last; the prefix of a list rendered at nesting
depth `d` is `4 * d` spaces, only the list at depth 0 can be array-shaped, and the
first text written for an item begins with the prefix (followed by the marker,
and in an array-shaped list by one space). -/
theorem C17_diff_item_rendering (marshal : Iface → String) (pfx : String)
    (items : List DiffItem) (isArray : Bool) (out : List Chunk)
    (h : writeItems marshal pfx items isArray = some out) :
    (∃ parts : List (List Chunk), parts.length = items.length ∧
      out = [openFrame isArray] ++ joinParts parts ++ [closeFrame pfx isArray] ∧
      ∀ (j : Nat) (item : DiffItem), items[j]? = some item →
        ∃ part, parts[j]? = some part ∧
          (∃ tail, part.find? Chunk.isText = some (Chunk.text (pfx ++ tail))) ∧
          (item.Resolution = ResolutionType.TypeDiff →
            ∃ subdiff nparts, item.ValueB = Iface.items subdiff ∧
              writeItems marshal (pfx ++ "    ") subdiff false =
                some ([Chunk.text "\x7b"] ++ joinParts nparts ++
                  [Chunk.text ("\n" ++ (pfx ++ "    ") ++ "\x7d")]) ∧
              part = [Chunk.text (pfx ++ "\"" ++ item.Key ++ "\": ")] ++
                ([Chunk.text "\x7b"] ++ joinParts nparts ++
                  [Chunk.text ("\n" ++ (pfx ++ "    ") ++ "\x7d")]) ++
                (if j + 1 < items.length then [Chunk.text ","] else []))) ∧
    (∀ (items0 : List DiffItem) (isArray0 : Bool) (d : Nat) (p : String)
        (l : List DiffItem) (a : Bool), RenderCall items0 isArray0 d p l a →
      p = String.mk (List.replicate (4 * d) ' ') ∧ (0 < d → a = false)) ∧
    (∀ (p k : String), itemHead p k true = Chunk.text (p ++ " ") ∧
      itemHead p k false = Chunk.text (p ++ "\"" ++ k ++ "\": ")) := by
  refine ⟨?_, fun items0 isArray0 d p l a hc => renderCall_pfx hc, fun p k => ⟨rfl, rfl⟩⟩
  obtain ⟨parts, hlen, hparts, hout⟩ := (writeItems_eq_some _ _ _ _ _).1 h
  refine ⟨parts, hlen, hout, fun j item hj => ?_⟩
  obtain ⟨part, hp, hsw⟩ := hparts j item hj
  refine ⟨part, hp, first_text_of_switch _ _ _ _ _ _ hsw, fun hr => ?_⟩
  obtain ⟨subdiff, nested, hv, hn, hpart⟩ := (writeItemsSwitch_cases _ _ _ _ _ _ hsw).2.2.2.2 hr
  obtain ⟨nparts, _, _, hnout⟩ := (writeItems_eq_some _ _ _ _ _).1 hn
  have hfr : nested = [Chunk.text "\x7b"] ++ joinParts nparts ++
      [Chunk.text ("\n" ++ (pfx ++ "    ") ++ "\x7d")] := by
    rw [hnout]
    rfl
  refine ⟨subdiff, nparts, hv, ?_, ?_⟩
  · rw [← hfr]
    exact hn
  · rw [hpart, hfr, comma_decide]

/-- The Diff item of the list of `{"a":{"x":1}}` against `{"a":{"x":2}}`, its
nested list framed with braces at four spaces. -/
theorem C17_diff_item_rendering_witness :
    writeItems (fun _ => "1") ""
        [DiffItem.mk "a" Iface.nil ResolutionType.TypeDiff
          (Iface.items [DiffItem.mk "x" (Iface.val (Value.number 1))
            ResolutionType.TypeEquals Iface.nil])] false =
      some [Chunk.text "\x7b", Chunk.text "\n", Chunk.text "\"a\": ", Chunk.text "\x7b",
        Chunk.text "\n", Chunk.text "    \"x\": ", Chunk.text "1", Chunk.text "\n    \x7d",
        Chunk.text "\n\x7d"] ∧
    ∃ parts : List (List Chunk), parts.length = 1 :=
  ⟨by simp [writeItems, writeItemsLoop, writeItemsSwitch, writeItem, DiffItem.Resolution,
      DiffItem.Key, DiffItem.ValueA, DiffItem.ValueB, indentation],
   (C17_diff_item_rendering (fun _ => "1") ""
      [DiffItem.mk "a" Iface.nil ResolutionType.TypeDiff
        (Iface.items [DiffItem.mk "x" (Iface.val (Value.number 1))
          ResolutionType.TypeEquals Iface.nil])] false
      [Chunk.text "\x7b", Chunk.text "\n", Chunk.text "\"a\": ", Chunk.text "\x7b",
        Chunk.text "\n", Chunk.text "    \"x\": ", Chunk.text "1", Chunk.text "\n    \x7d",
        Chunk.text "\n\x7d"]
      (by simp [writeItems, writeItemsLoop, writeItemsSwitch, writeItem, DiffItem.Resolution,
        DiffItem.Key, DiffItem.ValueA, DiffItem.ValueB, indentation])).1.imp
      (fun _ hp => hp.1)⟩

/-- C17 as stated fails in an array-shaped list: in `Format` of `Compare([1], [1])`
the one item, at nesting depth 0, is written as a space and its value, so it is
indented by one space, not by `4 * 0`. -/
theorem C17_counterexample_array_item_indent :
    writeItems (fun _ => "1") ""
        (Compare genericJSON (Value.array [Value.number 1])
          (Value.array [Value.number 1])).Items
        (Compare genericJSON (Value.array [Value.number 1])
          (Value.array [Value.number 1])).isArray =
      some [Chunk.text "[", Chunk.text "\n", Chunk.text " ", Chunk.text "1",
        Chunk.text "\n]"] ∧
    leadingSpaces (" " ++ "1") = 1 ∧ ¬ (leadingSpaces (" " ++ "1") = 4 * 0) := by
  have hitems : (Compare genericJSON (Value.array [Value.number 1])
        (Value.array [Value.number 1])).Items =
      [DiffItem.mk "" (Iface.val (Value.number 1)) ResolutionType.TypeEquals Iface.nil] := by
    rw [Compare_array_array]
    simp [Diff.Items, compareArrays, compare, deepEqual, index, Diff.Add,
      DiffItem.Resolution, List.range, List.range.loop]
  refine ⟨?_, by decide, by decide⟩
  rw [hitems]
  simp [Compare_array_array, writeItems, writeItemsLoop, writeItemsSwitch, writeItem,
    DiffItem.Resolution, DiffItem.Key, DiffItem.ValueA, DiffItem.ValueB]

/-! ## Swapping the two sides -/

theorem sameContainer_symm (a b : Value) : sameContainer a b = sameContainer b a := by
  cases a <;> cases b <;> rfl

theorem unionKeys_comm (A B : GoMap) : unionKeys B A = unionKeys A B := by
  refine List.eq_of_perm_of_sorted ?_ (sorted_unionKeys B A) (sorted_unionKeys A B)
  refine (List.perm_ext_iff_of_nodup (nodup_unionKeys B A) (nodup_unionKeys A B)).2 (fun k => ?_)
  rw [mem_unionKeys, mem_unionKeys, or_comm]

theorem swapped_bothItem (k : String) (vA vB : Value)
    (hm : ∀ mapA mapB, vA = Value.object mapA → vB = Value.object mapB →
      SwappedList (compareStringMaps mapA mapB).Items (compareStringMaps mapB mapA).Items)
    (ha : ∀ arrayA arrayB, vA = Value.array arrayA → vB = Value.array arrayB →
      SwappedList (compareArrays arrayA arrayB).Items (compareArrays arrayB arrayA).Items) :
    Swapped (bothItem k vA vB) (bothItem k vB vA) := by
  unfold bothItem
  cases hd : deepEqual vA vB
  · have hd2 : deepEqual vB vA = false := by rw [deepEqual_symm]; exact hd
    cases hc : sameContainer vA vB
    · have hc2 : sameContainer vB vA = false := by rw [sameContainer_symm]; exact hc
      rw [compare_other hd hc, compare_other hd2 hc2]
      exact .notEqual k vA vB
    · cases vA <;> cases vB <;> simp [sameContainer] at hc
      · rw [compare_array hd, compare_array hd2]
        obtain ⟨h1, h2⟩ := ha _ _ rfl rfl
        exact .diff k _ _ h1 h2
      · rw [compare_object hd, compare_object hd2]
        obtain ⟨h1, h2⟩ := hm _ _ rfl rfl
        exact .diff k _ _ h1 h2
  · have hd2 : deepEqual vB vA = true := by rw [deepEqual_symm]; exact hd
    rw [compare_of_deepEqual hd, compare_of_deepEqual hd2]
    exact .equal k vA vB ((deepEqual_iff_structEq vA vB).1 hd)

theorem swapped_aux (n : Nat) :
    (∀ A B : GoMap, sizeOf A ≤ n →
      SwappedList (compareStringMaps A B).Items (compareStringMaps B A).Items) ∧
    (∀ X Y : List Value, sizeOf X ≤ n →
      SwappedList (compareArrays X Y).Items (compareArrays Y X).Items) := by
  induction n with
  | zero =>
    constructor
    · intro A B h
      cases A <;> simp at h
    · intro X Y h
      cases X <;> simp at h
  | succ n ih =>
    constructor
    · intro A B hsz
      unfold SwappedList Diff.Items
      rw [compareStringMaps_items, compareStringMaps_items, unionKeys_comm A B]
      refine ⟨by simp, fun i x y hx hy => ?_⟩
      rw [List.getElem?_map] at hx hy
      cases hk : (unionKeys A B)[i]? with
      | none => simp [hk] at hx
      | some k =>
        simp only [hk, Option.map_some', Option.some.injEq] at hx hy
        subst hx hy
        have hbound := (mem_unionKeys A B k).1 (List.getElem?_mem hk)
        unfold mapItem firstPassItem
        cases hA : mapGet A k with
        | none =>
          cases hB : mapGet B k with
          | none => simp [hA, hB] at hbound
          | some vB =>
            simp only [mapIndex_of_get hB]
            exact .added k vB
        | some vA =>
          have hlt := sizeOf_lookup_le k A vA hA
          cases hB : mapGet B k with
          | none =>
            simp only [mapIndex_of_get hA]
            exact .removed k vA
          | some vB =>
            simp only [mapIndex_of_get hA, mapIndex_of_get hB]
            refine swapped_bothItem k vA vB (fun mapA mapB h1 _ => ?_)
              (fun arrayA arrayB h1 _ => ?_)
            · subst h1
              simp at hlt
              exact ih.1 mapA mapB (by omega)
            · subst h1
              simp at hlt
              exact ih.2 arrayA arrayB (by omega)
    · intro X Y hsz
      unfold SwappedList
      refine ⟨by rw [length_compareArrays, length_compareArrays, Nat.max_comm], ?_⟩
      intro i x y hx hy
      have hi : i < max X.length Y.length := by
        rw [← length_compareArrays]
        exact (List.getElem?_eq_some_iff.1 hx).1
      have hi2 : i < max Y.length X.length := by rw [Nat.max_comm]; exact hi
      rw [getElem?_compareArrays X Y i hi] at hx
      rw [getElem?_compareArrays Y X i hi2] at hy
      injection hx with hx
      injection hy with hy
      subst hx hy
      unfold arrayItem
      rw [minLength_eq_min, minLength_eq_min, Nat.min_comm Y.length X.length]
      by_cases h1 : i < min X.length Y.length
      · rw [if_pos h1, if_pos h1]
        have hle := sizeOf_index_le X i
        refine swapped_bothItem "" _ _ (fun mapA mapB h1 _ => ?_) (fun arrayA arrayB h1 _ => ?_)
        · rw [h1] at hle
          simp at hle
          exact ih.1 mapA mapB (by omega)
        · rw [h1] at hle
          simp at hle
          exact ih.2 arrayA arrayB (by omega)
      · rw [if_neg h1, if_neg h1]
        by_cases h2 : i < X.length
        · have h3 : ¬ i < Y.length := by omega
          rw [if_pos h2, if_neg h3]
          exact .removed _ _
        · have h3 : i < Y.length := by omega
          rw [if_neg h2, if_pos h3]
          exact .added _ _

theorem Swapped.key_eq {x y : DiffItem} (h : Swapped x y) : y.Key = x.Key := by
  cases h <;> rfl

/-- C18: the item list of comparing `(B, A)` is the item list of comparing
`(A, B)`, with the same keys in the same order, after the exchange of the two
sides, applied through the nested lists of Diff items: Removed and Added become
each other with `ValueA` and `ValueB` exchanged, NotEqual has its two values
exchanged, Equal keeps a structurally equal value. -/
theorem C18_swap_duality (A B : GoMap) (X Y : List Value) :
    ((compareStringMaps B A).Items.length = (compareStringMaps A B).Items.length ∧
      ∀ (i : Nat) (x y : DiffItem), (compareStringMaps A B).Items[i]? = some x →
        (compareStringMaps B A).Items[i]? = some y → Swapped x y ∧ y.Key = x.Key) ∧
    ((compareArrays Y X).Items.length = (compareArrays X Y).Items.length ∧
      ∀ (i : Nat) (x y : DiffItem), (compareArrays X Y).Items[i]? = some x →
        (compareArrays Y X).Items[i]? = some y → Swapped x y ∧ y.Key = x.Key) := by
  obtain ⟨hm1, hm2⟩ := (swapped_aux (sizeOf A)).1 A B (Nat.le_refl _)
  obtain ⟨ha1, ha2⟩ := (swapped_aux (sizeOf X)).2 X Y (Nat.le_refl _)
  exact ⟨⟨hm1.symm, fun i x y hx hy => ⟨hm2 i x y hx hy, (hm2 i x y hx hy).key_eq⟩⟩,
    ⟨ha1.symm, fun i x y hx hy => ⟨ha2 i x y hx hy, (ha2 i x y hx hy).key_eq⟩⟩⟩

/-! ## Termination -/

theorem sizeOf_index_lt_of_lt {xs : List Value} {i : Nat} (h : i < xs.length) :
    sizeOf (index xs i) < sizeOf xs := by
  have hmem : index xs i ∈ xs := by
    have := getElem?_eq_some_index h
    exact List.getElem?_mem this
  exact List.sizeOf_lt_of_mem hmem

theorem compareCall_decreases {callee caller : Value × Value}
    (h : CompareCall callee caller) :
    sizeOf callee.1 < sizeOf caller.1 ∧ sizeOf callee.2 < sizeOf caller.2 := by
  cases h with
  | ofMaps mapA mapB kA vB hne hk hB =>
    have hA := (mem_sortedKeys mapA kA).1 hk
    obtain ⟨vA, hvA⟩ := Option.isSome_iff_exists.1 hA
    rw [mapIndex_of_get hvA]
    exact ⟨sizeOf_get_lt_object hvA, sizeOf_get_lt_object hB⟩
  | ofArrays arrayA arrayB i hne hi =>
    rw [minLength_eq_min] at hi
    have h1 : i < arrayA.length := by omega
    have h2 : i < arrayB.length := by omega
    have := sizeOf_index_lt_of_lt h1
    have := sizeOf_index_lt_of_lt h2
    constructor <;> simp <;> omega

/-- C20: every call of `compare` that `compare` reaches through
`compareStringMaps` and `compareArrays` is on strictly smaller sub-values of both
`A` and `B`, so the calls are well founded and the recursion ends; `writeItems`
calls itself on the list of a Diff item only, a strictly smaller tree, so its
calls are well founded too. -/
theorem C20_termination :
    (∀ callee caller : Value × Value, CompareCall callee caller →
      sizeOf callee.1 < sizeOf caller.1 ∧ sizeOf callee.2 < sizeOf caller.2) ∧
    WellFounded CompareCall ∧
    (∀ sub items : List DiffItem, WriteCall sub items → sizeOf sub < sizeOf items) ∧
    WellFounded WriteCall ∧
    (∀ (marshal : Iface → String) (pfx : String) (isArray notLast : Bool) (item : DiffItem)
        (subdiff : List DiffItem), item.Resolution = ResolutionType.TypeDiff →
      item.ValueB = Iface.items subdiff →
      writeItemsSwitch marshal pfx isArray notLast item =
        match writeItems marshal (pfx ++ indentation) subdiff false with
        | none => none
        | some nested =>
          some ([Chunk.text (pfx ++ "\"" ++ item.Key ++ "\": ")] ++ nested ++ comma notLast)) ∧
    (∀ (marshal : Iface → String) (pfx : String) (isArray notLast : Bool) (item : DiffItem),
      item.Resolution ≠ ResolutionType.TypeDiff →
      ∃ part, writeItemsSwitch marshal pfx isArray notLast item = some part) := by
  have hw : ∀ sub items : List DiffItem, WriteCall sub items → sizeOf sub < sizeOf items := by
    intro sub items h
    cases h with
    | ofDiff _ item _ hmem hr hv => exact sizeOf_subdiff_lt hmem hv
  refine ⟨fun _ _ h => compareCall_decreases h, ?_, hw, ?_, ?_, ?_⟩
  · exact Subrelation.wf (fun {a b} h => (compareCall_decreases h).1)
      (InvImage.wf (fun p : Value × Value => sizeOf p.1) Nat.lt_wfRel.wf)
  · exact Subrelation.wf (fun {a b} h => hw a b h)
      (InvImage.wf (fun l : List DiffItem => sizeOf l) Nat.lt_wfRel.wf)
  · intro marshal pfx isArray notLast item subdiff hr hv
    exact writeItemsSwitch_diff _ _ _ _ _ subdiff hr hv
  · intro marshal pfx isArray notLast item hr
    cases hres : item.Resolution with
    | TypeDiff => exact absurd hres hr
    | TypeEquals => exact ⟨_, writeItemsSwitch_equals _ _ _ _ _ hres⟩
    | TypeNotEquals => exact ⟨_, writeItemsSwitch_notEquals _ _ _ _ _ hres⟩
    | TypeAdded => exact ⟨_, writeItemsSwitch_added _ _ _ _ _ hres⟩
    | TypeRemoved => exact ⟨_, writeItemsSwitch_removed _ _ _ _ _ hres⟩

end Jsondiff
